import Mathlib

/-!
Verification of the S3Explorer client-side indexing and transfer core.

The Rust sources under `src/src-tauri/src` are shallowly embedded: strings
become `List Char` (Rust compares strings byte-wise over UTF-8, and UTF-8
byte order coincides with code-point order, so character-list comparison is
faithful), machine integers become `Nat` / `Int` with explicit wrap-around
where the code casts, the SQLite tables become lists of row records and the
SQL statements become pure functions on them, and fallible code returns
`Option` / `Except`.  External collaborators (the AES-GCM cipher, the S3
wire protocol) are modelled at their interfaces.
-/

namespace S3Explorer

/-- Rust `String` / SQLite `TEXT`, as a list of characters. -/
abbrev Str := List Char

/-- Byte-wise (equivalently code-point-wise) strict lexicographic order on
strings, as used by Rust `&str` comparison and SQLite `>`. -/
def strLt : Str → Str → Bool
  | [], [] => false
  | [], _ :: _ => true
  | _ :: _, [] => false
  | a :: s, b :: t =>
    if a.toNat < b.toNat then true
    else if b.toNat < a.toNat then false
    else strLt s t

/-- Rust `str::starts_with`. -/
def startsWith (pre s : Str) : Bool := pre.isPrefixOf s

/-- Rust `s.trim_end_matches('/')`: remove every trailing slash. -/
def trimEndSlashes (s : Str) : Str :=
  (s.reverse.dropWhile (fun c => c = '/')).reverse

/-- Keep the characters of `t` up to and including its last `'/'`
(everything is dropped when no slash occurs). -/
def dropAfterLastSlash (t : Str) : Str :=
  (t.reverse.dropWhile (fun c => c ≠ '/')).reverse

/-- The parent of a prefix, as computed by the loop condition and body of
`DatabaseManager::ensure_parent_prefixes_exist` (database.rs): trim the
trailing slashes, locate the last remaining `'/'` (`rfind`), and keep
everything up to and including it; `none` when no slash remains, which
terminates the walk. -/
def parentPfx? (p : Str) : Option Str :=
  if (trimEndSlashes p).any (fun c => c = '/') then
    some (dropAfterLastSlash (trimEndSlashes p))
  else none

/-- The head of `dropWhile` fails the predicate. -/
theorem dropWhile_head_not {α : Type} (p : α → Bool) :
    ∀ (l : List α) (a : α) (l2 : List α), l.dropWhile p = a :: l2 → p a = false := by
  intro l
  induction l with
  | nil => intro a l2 h; simp [List.dropWhile] at h
  | cons x xs ih =>
    intro a l2 h
    by_cases hx : p x
    · rw [List.dropWhile_cons_of_pos hx] at h
      exact ih a l2 h
    · rw [List.dropWhile_cons_of_neg hx] at h
      cases h
      simpa using hx

/-- A parent prefix is strictly shorter than its child. -/
theorem parentPfx_length_lt {p q : Str} (h : parentPfx? p = some q) :
    q.length < p.length := by
  unfold parentPfx? at h
  split at h
  case isFalse => exact absurd h (by simp)
  case isTrue hany =>
    injection h with h
    subst h
    unfold dropAfterLastSlash trimEndSlashes
    unfold trimEndSlashes at hany
    rw [List.reverse_reverse, List.length_reverse]
    set u := p.reverse.dropWhile (fun c => c = '/') with hu
    have hmem : '/' ∈ u := by
      rw [List.any_eq_true] at hany
      obtain ⟨c, hc, hceq⟩ := hany
      have hc2 : c = '/' := by simpa using hceq
      subst hc2
      rwa [List.mem_reverse] at hc
    have hne : u ≠ [] := by
      intro hnil; rw [hnil] at hmem; simp at hmem
    obtain ⟨a, u2, huc⟩ := List.exists_cons_of_ne_nil hne
    have ha : (fun c => decide (c = '/')) a = false := by
      apply dropWhile_head_not _ p.reverse a u2
      rw [← hu, huc]
    have ha2 : a ≠ '/' := by simpa using ha
    have hstep : u.dropWhile (fun c => c ≠ '/') = u2.dropWhile (fun c => c ≠ '/') := by
      rw [huc]
      exact List.dropWhile_cons_of_pos (by simpa using ha2)
    calc (u.dropWhile (fun c => c ≠ '/')).length
        = (u2.dropWhile (fun c => c ≠ '/')).length := by rw [hstep]
      _ ≤ u2.length := (List.dropWhile_suffix _).length_le
      _ < u.length := by rw [huc]; simp
      _ ≤ p.reverse.length := (List.dropWhile_suffix _).length_le
      _ = p.length := List.length_reverse p

/-- A parent prefix is a string prefix of its child. -/
theorem parentPfx_isPrefix {p q : Str} (h : parentPfx? p = some q) : q <+: p := by
  unfold parentPfx? at h
  split at h
  case isFalse => exact absurd h (by simp)
  case isTrue =>
    injection h with h
    subst h
    unfold dropAfterLastSlash trimEndSlashes
    rw [List.reverse_reverse]
    rw [← List.reverse_suffix]
    rw [List.reverse_reverse]
    exact (List.dropWhile_suffix _).trans (List.dropWhile_suffix _)

/-- The chain of parents of a prefix, oldest-ancestor last, with explicit
fuel (the walk strictly shortens the string, so `p.length` fuel suffices). -/
def ancestorChainAux : Nat → Str → List Str
  | 0, _ => []
  | fuel + 1, p =>
    match parentPfx? p with
    | none => []
    | some q => q :: ancestorChainAux fuel q

/-- The prefixes visited by the `while` loop of
`ensure_parent_prefixes_exist` / `mark_prefix_and_ancestors_incomplete`:
the parent, the grandparent, …, down to (excluding) the root. -/
def ancestorChain (p : Str) : List Str := ancestorChainAux p.length p

theorem ancestorChainAux_adequate :
    ∀ (n : Nat) (p : Str) (fuel : Nat), p.length = n → n ≤ fuel →
      ancestorChainAux fuel p = ancestorChain p := by
  intro n
  induction n using Nat.strong_induction_on with
  | _ n ih =>
    intro p fuel hn hf
    cases hpar : parentPfx? p with
    | none =>
      cases fuel with
      | zero =>
        have hp : p = [] := List.length_eq_zero.mp (by omega)
        subst hp
        rfl
      | succ f =>
        unfold ancestorChain
        cases hm : p.length with
        | zero =>
          have hp : p = [] := List.length_eq_zero.mp hm
          subst hp
          rfl
        | succ m =>
          simp only [ancestorChainAux, hpar]
    | some q =>
      have hq : q.length < p.length := parentPfx_length_lt hpar
      cases fuel with
      | zero => omega
      | succ f =>
        unfold ancestorChain
        cases hm : p.length with
        | zero => omega
        | succ m =>
          simp only [ancestorChainAux, hpar]
          rw [ih q.length (by omega) q f rfl (by omega),
            ih q.length (by omega) q m rfl (by omega)]

/-- Unfolding rule for `ancestorChain` when a parent exists. -/
theorem ancestorChain_cons {p q : Str} (h : parentPfx? p = some q) :
    ancestorChain p = q :: ancestorChain q := by
  have hq : q.length < p.length := parentPfx_length_lt h
  unfold ancestorChain
  cases hm : p.length with
  | zero => omega
  | succ m =>
    simp only [ancestorChainAux, h]
    rw [ancestorChainAux_adequate q.length q m rfl (by omega)]
    rfl

/-- Unfolding rule for `ancestorChain` when no parent exists. -/
theorem ancestorChain_nil {p : Str} (h : parentPfx? p = none) :
    ancestorChain p = [] := by
  unfold ancestorChain
  cases hm : p.length with
  | zero => rfl
  | succ m => simp only [ancestorChainAux, h]

/-- The ancestors of an ancestor are ancestors. -/
theorem ancestorChain_trans :
    ∀ (p q : Str), q ∈ ancestorChain p → ∀ r ∈ ancestorChain q, r ∈ ancestorChain p := by
  have key : ∀ (n : Nat) (p : Str), p.length = n →
      ∀ q ∈ ancestorChain p, ∀ r ∈ ancestorChain q, r ∈ ancestorChain p := by
    intro n
    induction n using Nat.strong_induction_on with
    | _ n ih =>
      intro p hn q hq r hr
      cases hpar : parentPfx? p with
      | none => rw [ancestorChain_nil hpar] at hq; simp at hq
      | some q0 =>
        rw [ancestorChain_cons hpar] at hq ⊢
        rcases List.mem_cons.mp hq with hq | hq
        · subst hq
          exact List.mem_cons_of_mem _ hr
        · have hlt : q0.length < p.length := parentPfx_length_lt hpar
          exact List.mem_cons_of_mem _
            (ih q0.length (by omega) q0 rfl q hq r hr)
  intro p q hq r hr
  exact key p.length p rfl q hq r hr

/-- Every element of the ancestor chain is a string prefix of the start. -/
theorem ancestorChain_isPrefix :
    ∀ (p q : Str), q ∈ ancestorChain p → q <+: p := by
  have key : ∀ (n : Nat) (p : Str), p.length = n →
      ∀ q ∈ ancestorChain p, q <+: p := by
    intro n
    induction n using Nat.strong_induction_on with
    | _ n ih =>
      intro p hn q hq
      cases hpar : parentPfx? p with
      | none => rw [ancestorChain_nil hpar] at hq; simp at hq
      | some q0 =>
        rw [ancestorChain_cons hpar] at hq
        rcases List.mem_cons.mp hq with hq | hq
        · subst hq; exact parentPfx_isPrefix hpar
        · have hlt : q0.length < p.length := parentPfx_length_lt hpar
          exact (ih q0.length (by omega) q0 rfl q hq).trans (parentPfx_isPrefix hpar)
  intro p q hq
  exact key p.length p rfl q hq

/-- The empty prefix has no parent. -/
theorem ancestorChain_empty : ancestorChain ([] : Str) = [] := rfl

/-! ### SQL `LIKE`

SQLite's `LIKE` operator: `%` matches any sequence, `_` any single
character, and ordinary characters match up to ASCII case folding (SQLite's
default `case_sensitive_like = OFF`). No `ESCAPE` clause is used in the
sources. -/

/-- ASCII lower-casing, SQLite's default `LIKE` folding. -/
def asciiLower (c : Char) : Char :=
  if 'A' ≤ c ∧ c ≤ 'Z' then Char.ofNat (c.toNat + 32) else c

/-- Character match for `LIKE`: equal up to ASCII case. -/
def likeCharEq (a b : Char) : Bool := asciiLower a = asciiLower b

/-- SQLite `LIKE` pattern matching (`pattern`, then candidate string):
`%` matches any sequence, `_` consumes one arbitrary character, any other
pattern character must match the candidate character up to ASCII case. -/
def likeMatch : Str → Str → Bool
  | [], s => s.isEmpty
  | c :: ps, s =>
    if c = '%' then
      likeMatch ps s ||
        (match s with
         | [] => false
         | _ :: s2 => likeMatch (c :: ps) s2)
    else
      match s with
      | [] => false
      | d :: s2 => (if c = '_' then true else likeCharEq c d) && likeMatch ps s2
termination_by p s => (p.length, s.length)

theorem likeMatch_nil_pat (s : Str) : likeMatch [] s = s.isEmpty := by
  simp only [likeMatch]

theorem likeMatch_pct_nil (ps : Str) : likeMatch ('%' :: ps) [] = likeMatch ps [] := by
  simp only [likeMatch]
  simp

theorem likeMatch_pct_cons (ps : Str) (a : Char) (t : Str) :
    likeMatch ('%' :: ps) (a :: t) = (likeMatch ps (a :: t) || likeMatch ('%' :: ps) t) := by
  simp only [likeMatch]
  simp

theorem likeMatch_other_nil (c : Char) (ps : Str) (hc : c ≠ '%') :
    likeMatch (c :: ps) [] = false := by
  simp only [likeMatch]
  simp [hc]

theorem likeMatch_other_cons (c : Char) (ps : Str) (a : Char) (t : Str) (hc : c ≠ '%') :
    likeMatch (c :: ps) (a :: t) =
      ((if c = '_' then true else likeCharEq c a) && likeMatch ps t) := by
  simp only [likeMatch]
  simp [hc]

/-- A bare `%` pattern matches every string. -/
theorem likeMatch_pct_any : ∀ s : Str, likeMatch (['%'] : Str) s = true := by
  intro s
  induction s with
  | nil => rw [likeMatch_pct_nil, likeMatch_nil_pat]; rfl
  | cons c s2 ih => rw [likeMatch_pct_cons, ih]; simp

/-- Prepending `%` to a pattern preserves a match. -/
theorem likeMatch_pct_of (ps s : Str) (h : likeMatch ps s = true) :
    likeMatch ('%' :: ps) s = true := by
  cases s with
  | nil => rw [likeMatch_pct_nil]; exact h
  | cons a t => rw [likeMatch_pct_cons, h]; simp

/-- Concatenating patterns matches concatenated strings. -/
theorem likeMatch_append_combine :
    ∀ (p1 s1 : Str), likeMatch p1 s1 = true →
      ∀ (p2 s2 : Str), likeMatch p2 s2 = true → likeMatch (p1 ++ p2) (s1 ++ s2) = true := by
  have key : ∀ (k : Nat) (p1 s1 : Str), p1.length + s1.length = k →
      likeMatch p1 s1 = true →
      ∀ (p2 s2 : Str), likeMatch p2 s2 = true → likeMatch (p1 ++ p2) (s1 ++ s2) = true := by
    intro k
    induction k using Nat.strong_induction_on with
    | _ k ih =>
      intro p1 s1 hk h1 p2 s2 h2
      match p1 with
      | [] =>
        have hs1 : s1 = [] := by
          cases s1 with
          | nil => rfl
          | cons a t => rw [likeMatch_nil_pat] at h1; simp at h1
        subst hs1
        simpa using h2
      | c :: ps =>
        by_cases hc : c = '%'
        · subst hc
          show likeMatch ('%' :: (ps ++ p2)) (s1 ++ s2) = true
          match s1 with
          | [] =>
            rw [likeMatch_pct_nil] at h1
            have := ih (ps.length + 0) (by simp at hk; omega) ps [] rfl h1 p2 s2 h2
            simp only [List.nil_append] at this ⊢
            exact likeMatch_pct_of _ _ this
          | a :: t1 =>
            rw [likeMatch_pct_cons] at h1
            rw [Bool.or_eq_true] at h1
            rw [List.cons_append, likeMatch_pct_cons, Bool.or_eq_true]
            rcases h1 with h1 | h1
            · left
              have := ih (ps.length + (a :: t1).length) (by simp at hk ⊢; omega)
                ps (a :: t1) rfl h1 p2 s2 h2
              simpa using this
            · right
              have := ih (('%' :: ps).length + t1.length) (by simp at hk ⊢; omega)
                ('%' :: ps) t1 rfl h1 p2 s2 h2
              simpa using this
        · match s1 with
          | [] => rw [likeMatch_other_nil c ps hc] at h1; simp at h1
          | a :: t1 =>
            rw [likeMatch_other_cons c ps a t1 hc, Bool.and_eq_true] at h1
            have := ih (ps.length + t1.length) (by simp at hk ⊢; omega)
              ps t1 rfl h1.2 p2 s2 h2
            show likeMatch (c :: (ps ++ p2)) ((a :: t1) ++ s2) = true
            rw [List.cons_append, likeMatch_other_cons c _ a _ hc, Bool.and_eq_true]
            exact ⟨h1.1, this⟩
  intro p1 s1 h1 p2 s2 h2
  exact key (p1.length + s1.length) p1 s1 rfl h1 p2 s2 h2

/-- A match against concatenated patterns splits the string. -/
theorem likeMatch_append_split :
    ∀ (p1 p2 s : Str), likeMatch (p1 ++ p2) s = true →
      ∃ s1 s2, s = s1 ++ s2 ∧ likeMatch p1 s1 = true ∧ likeMatch p2 s2 = true := by
  have key : ∀ (k : Nat) (p1 s : Str), p1.length + s.length = k →
      ∀ p2, likeMatch (p1 ++ p2) s = true →
      ∃ s1 s2, s = s1 ++ s2 ∧ likeMatch p1 s1 = true ∧ likeMatch p2 s2 = true := by
    intro k
    induction k using Nat.strong_induction_on with
    | _ k ih =>
      intro p1 s hk p2 h
      match p1 with
      | [] =>
        refine ⟨[], s, rfl, ?_, by simpa using h⟩
        rw [likeMatch_nil_pat]
        rfl
      | c :: ps =>
        by_cases hc : c = '%'
        · subst hc
          rw [List.cons_append] at h
          match s with
          | [] =>
            rw [likeMatch_pct_nil] at h
            obtain ⟨s1, s2, hs, hm1, hm2⟩ :=
              ih (ps.length + 0) (by simp at hk; omega) ps [] rfl p2 h
            refine ⟨s1, s2, hs, ?_, hm2⟩
            have hs1 : s1 = [] := by
              cases s1 with
              | nil => rfl
              | cons x xs => simp at hs
            subst hs1
            rw [likeMatch_pct_nil]
            exact hm1
          | a :: t =>
            rw [likeMatch_pct_cons, Bool.or_eq_true] at h
            rcases h with h | h
            · obtain ⟨s1, s2, hs, hm1, hm2⟩ :=
                ih (ps.length + (a :: t).length) (by simp at hk ⊢; omega)
                  ps (a :: t) rfl p2 h
              exact ⟨s1, s2, hs, likeMatch_pct_of _ _ hm1, hm2⟩
            · obtain ⟨s1, s2, hs, hm1, hm2⟩ :=
                ih (('%' :: ps).length + t.length) (by simp at hk ⊢; omega)
                  ('%' :: ps) t rfl p2 h
              refine ⟨a :: s1, s2, by rw [hs]; rfl, ?_, hm2⟩
              rw [likeMatch_pct_cons, Bool.or_eq_true]
              exact Or.inr hm1
        · rw [List.cons_append] at h
          match s with
          | [] => rw [likeMatch_other_nil _ _ hc] at h; simp at h
          | a :: t =>
            rw [likeMatch_other_cons _ _ _ _ hc, Bool.and_eq_true] at h
            obtain ⟨s1, s2, hs, hm1, hm2⟩ :=
              ih (ps.length + t.length) (by simp at hk ⊢; omega) ps t rfl p2 h.2
            refine ⟨a :: s1, s2, by rw [hs]; rfl, ?_, hm2⟩
            rw [likeMatch_other_cons _ _ _ _ hc, Bool.and_eq_true]
            exact ⟨h.1, hm1⟩
  intro p1 p2 s h
  exact key (p1.length + s.length) p1 s rfl p2 h

/-- If a string matches `p ++ %` and `q` is a string prefix of `p`, then it
also matches `q ++ %`. -/
theorem likeMatch_pfx_transfer {p q s : Str} (hpre : q <+: p)
    (h : likeMatch (p ++ ['%']) s = true) : likeMatch (q ++ ['%']) s = true := by
  obtain ⟨m, rfl⟩ := hpre
  rw [List.append_assoc] at h
  obtain ⟨s1, s2, rfl, hm1, _⟩ := likeMatch_append_split q (m ++ ['%']) s h
  exact likeMatch_append_combine q s1 hm1 ['%'] s2 (likeMatch_pct_any s2)

/-! ### IndexStore (database.rs)

One `DatabaseManager` serves one profile and every SQL statement filters on
`profile_id = self.profile_id`, so the embedding fixes the profile and
omits the column. `objects`, `prefix_status` and `bucket_info` become lists
of row records.  Row ids and the columns never read by any verified claim
(timestamps of eviction, e_tag, storage class, owner, checksum, restore,
content type, SSE) are carried only where a claim mentions them. -/

/-- A row of the `prefix_status` table (database.rs, `PrefixStatus`). -/
structure PrefixRow where
  bucket : Str
  pfx : Str
  is_complete : Bool
  objects_count : Int
  total_size : Int
  continuation_token : Option Str
  last_indexed_key : Option Str
  last_sync_started_at : Option Int
  last_sync_completed_at : Option Int
deriving DecidableEq

/-- A row of the `objects` table (database.rs, `IndexedObject`).
Modelled from the spec: the `IndexedObject` struct itself is declared in a
module that is not part of the sources; its columns are read off the SQL in
database.rs, and uniqueness is `(profile, bucket, key, version_id)` per the
spec's data model. Pure metadata columns not read by any claim are elided. -/
structure ObjRow where
  bucket : Str
  key : Str
  version_id : Option Str
  size : Int
  parent_pfx : Str
  basename : Str
  depth : Int
  is_folder : Bool
  indexed_at : Int
deriving DecidableEq

/-- A row of the `bucket_info` table.
Modelled from the spec: `BucketInfo` is declared outside the sources; the
spec gives per `(profile, bucket)` the fields `initial_index_requests`,
`initial_index_completed`, `last_checked_at` (plus bucket configuration
data not read by any claim, elided here). -/
structure BucketInfoRow where
  bucket : Str
  initial_index_requests : Int
  initial_index_completed : Bool
  last_checked_at : Option Int
deriving DecidableEq

/-- The SQLite database of one profile. -/
structure Store where
  objects : List ObjRow
  statuses : List PrefixRow
  buckets : List BucketInfoRow
deriving DecidableEq

/-- The empty index store. -/
def Store.empty : Store := ⟨[], [], []⟩

/-- `SELECT ... FROM prefix_status WHERE bucket_name = ? AND prefix = ?`. -/
def getStatus (st : Store) (b p : Str) : Option PrefixRow :=
  st.statuses.find? (fun r => decide (r.bucket = b ∧ r.pfx = p))

/-- `SELECT ... FROM bucket_info WHERE bucket_name = ?`
(`DatabaseManager::get_bucket_info`). -/
def get_bucket_info (st : Store) (b : Str) : Option BucketInfoRow :=
  st.buckets.find? (fun r => decide (r.bucket = b))

/-- `INSERT OR IGNORE` of a prefix-status row: do nothing when a row with
the same `(bucket, prefix)` key exists, otherwise append. -/
def insertIgnoreStatus (st : Store) (row : PrefixRow) : Store :=
  if st.statuses.any (fun r => decide (r.bucket = row.bucket ∧ r.pfx = row.pfx)) then st
  else { st with statuses := st.statuses ++ [row] }

/-- `INSERT ... ON CONFLICT(bucket, prefix) DO UPDATE SET <all columns>`:
replace the conflicting row in place, or append. -/
def replaceStatus (st : Store) (row : PrefixRow) : Store :=
  if st.statuses.any (fun r => decide (r.bucket = row.bucket ∧ r.pfx = row.pfx)) then
    let upd := st.statuses.map
      (fun r => if r.bucket = row.bucket ∧ r.pfx = row.pfx then row else r)
    { st with statuses := upd }
  else { st with statuses := st.statuses ++ [row] }

/-- The default row `ensure_parent_prefixes_exist` inserts for a missing
parent: `is_complete = FALSE`, zero counts, only `last_sync_started_at`. -/
def defaultParentRow (b q : Str) (now : Int) : PrefixRow :=
  { bucket := b, pfx := q, is_complete := false, objects_count := 0, total_size := 0,
    continuation_token := none, last_indexed_key := none,
    last_sync_started_at := some now, last_sync_completed_at := none }

/-- `DatabaseManager::ensure_parent_prefixes_exist` (database.rs): walk the
parent chain inserting missing rows, then make sure the root row exists. -/
def ensure_parent_prefixes_exist (st : Store) (b p : Str) (now : Int) : Store :=
  let st1 := (ancestorChain p).foldl
    (fun s q => insertIgnoreStatus s (defaultParentRow b q now)) st
  insertIgnoreStatus st1 (defaultParentRow b [] now)

/-- `DatabaseManager::upsert_prefix_status` (database.rs): in one
transaction, materialize the missing ancestors, then upsert the row. -/
def upsert_prefix_status (st : Store) (row : PrefixRow) (now : Int) : Store :=
  replaceStatus (ensure_parent_prefixes_exist st row.bucket row.pfx now) row

/-- `DatabaseManager::batch_upsert_prefix_status` (database.rs): one
transaction, the same `ON CONFLICT DO UPDATE` statement per row, and no
ancestor materialization. -/
def batch_upsert_prefix_status (st : Store) (rows : List PrefixRow) : Store :=
  rows.foldl replaceStatus st

/-- `DatabaseManager::mark_prefix_incomplete`: a single row update. -/
def mark_prefix_incomplete (st : Store) (b p : Str) : Store :=
  let upd := st.statuses.map
    (fun r => if r.bucket = b ∧ r.pfx = p then { r with is_complete := false } else r)
  { st with statuses := upd }

/-- The ancestor set collected by
`DatabaseManager::mark_prefix_and_ancestors_incomplete`: the prefix, its
parent chain, and — when the prefix is non-empty — the root. -/
def prefixesToMark (p : Str) : List Str :=
  (p :: ancestorChain p) ++ (if p ≠ [] then [[]] else [])

/-- `DatabaseManager::mark_prefix_and_ancestors_incomplete` (database.rs):
one `UPDATE ... SET is_complete = FALSE WHERE ... prefix IN (...)`. -/
def mark_prefix_and_ancestors_incomplete (st : Store) (b p : Str) : Store :=
  let upd := st.statuses.map
    (fun r => if r.bucket = b ∧ r.pfx ∈ prefixesToMark p
      then { r with is_complete := false } else r)
  { st with statuses := upd }

/-- `DatabaseManager::delete_prefix_status` (database.rs). -/
def delete_prefix_status (st : Store) (b p : Str) : Store :=
  let kept := st.statuses.filter (fun r => ¬(r.bucket = b ∧ r.pfx = p))
  { st with statuses := kept }

/-- The `EXISTS` subquery of `cleanup_orphan_prefix_status`: some object of
the same bucket has `key LIKE prefix || '%'`. -/
def hasMatchingObject (objs : List ObjRow) (r : PrefixRow) : Bool :=
  objs.any (fun o => decide (o.bucket = r.bucket) && likeMatch (r.pfx ++ ['%']) o.key)

/-- `DatabaseManager::cleanup_orphan_prefix_status` (database.rs): delete
the non-root prefix rows of the bucket with no matching object; returns the
deleted count. -/
def cleanup_orphan_prefix_status (st : Store) (b : Str) : Store × Int :=
  let keep := fun (r : PrefixRow) =>
    ¬(r.bucket = b ∧ r.pfx ≠ [] ∧ hasMatchingObject st.objects r = false)
  (⟨st.objects, st.statuses.filter (fun r => keep r), st.buckets⟩,
    ((st.statuses.filter (fun r => ¬ keep r)).length : Int))

/-- `INSERT OR REPLACE` of an object row: SQLite deletes the rows that
violate the `(bucket, key, version_id)` uniqueness and inserts the new
row. -/
def replaceObj (st : Store) (row : ObjRow) : Store :=
  let kept := st.objects.filter
    (fun o => ¬(o.bucket = row.bucket ∧ o.key = row.key ∧ o.version_id = row.version_id))
  { st with objects := kept ++ [row] }

/-- `DatabaseManager::upsert_object` (database.rs). -/
def upsert_object (st : Store) (row : ObjRow) : Store := replaceObj st row

/-- `DatabaseManager::upsert_objects_batch` (database.rs): empty input
returns `Ok(0)` without touching the database; otherwise one transaction
executing the same `INSERT OR REPLACE` per row, counting each row. -/
def upsert_objects_batch (st : Store) (objs : List ObjRow) : Store × Nat :=
  if objs = [] then (st, 0)
  else (objs.foldl replaceObj st, objs.length)

/-- `DatabaseManager::upsert_bucket_info` (database.rs): the `COALESCE`
updates collapse to a plain replace because the modelled columns are
written with non-NULL values by every caller in the sources. -/
def upsert_bucket_info (st : Store) (row : BucketInfoRow) : Store :=
  if st.buckets.any (fun r => decide (r.bucket = row.bucket)) then
    let upd := st.buckets.map (fun r => if r.bucket = row.bucket then row else r)
    { st with buckets := upd }
  else { st with buckets := st.buckets ++ [row] }

/-- `SELECT parent_prefix, COUNT(*), SUM(size) ... GROUP BY parent_prefix`
(`DatabaseManager::calculate_all_prefix_stats_batch`): statistics of every
non-empty parent prefix over non-folder rows of the bucket. -/
def calculate_all_prefix_stats_batch (st : Store) (b : Str) : List (Str × Int × Int) :=
  let rel := st.objects.filter
    (fun o => decide (o.bucket = b) && decide (o.parent_pfx ≠ []) && !o.is_folder)
  ((rel.map (fun o => o.parent_pfx)).dedup).map
    (fun p =>
      let grp := rel.filter (fun o => decide (o.parent_pfx = p))
      (p, (grp.length : Int), (grp.map (fun o => o.size)).sum))

/-- `DatabaseManager::is_prefix_complete` (database.rs), in the source's
order: the `initial_index_completed` shortcut, the root-watermark shortcut
for non-empty prefixes, then the own-row / incomplete-descendant /
unexplored-sub-prefix checks. -/
def is_prefix_complete (st : Store) (b p : Str) : Bool :=
  -- Raccourci 1: bucket entirely indexed.
  let bucket_fully_indexed :=
    ((get_bucket_info st b).map (fun r => r.initial_index_completed)).getD false
  if bucket_fully_indexed then true
  else
    -- Raccourci 2: the root watermark has moved past this prefix.
    let shortcut2 :=
      if p ≠ [] then
        match (getStatus st b []).bind (fun r => r.last_indexed_key) with
        | none => false
        | some last_key =>
          let pfx_for_compare := trimEndSlashes p
          let first_segment := last_key.takeWhile (fun c => c ≠ '/')
          if strLt pfx_for_compare first_segment then true
          else if strLt p last_key && !startsWith p last_key then true
          else false
      else false
    if shortcut2 then true
    else
      match (getStatus st b p).map (fun r => r.is_complete) with
      | none => false
      | some false => false
      | some true =>
        let pattern := if p = [] then (['%'] : Str) else p ++ ['%']
        let has_incomplete_children := st.statuses.any
          (fun r => decide (r.bucket = b) && likeMatch pattern r.pfx &&
            decide (r.pfx ≠ p) && !r.is_complete)
        if has_incomplete_children then false
        else
          let has_unexplored := st.objects.any
            (fun o => decide (o.bucket = b) && likeMatch pattern o.key &&
              decide (o.parent_pfx ≠ p) && decide (o.parent_pfx ≠ []) &&
              !(st.statuses.any (fun ps => decide (ps.bucket = o.bucket ∧ ps.pfx = o.parent_pfx))))
          !has_unexplored


/-! ### Ancestor closure (claim C1, spec P1 / Invariant I1) -/

/-- All ancestors of a prefix, the root included. -/
def ancestorsWithRoot (p : Str) : List Str := ancestorChain p ++ [[]]

/-- The `(bucket, prefix)` keys of the stored prefix-status rows. -/
def statusKeys (st : Store) : List (Str × Str) :=
  st.statuses.map (fun r => (r.bucket, r.pfx))

/-- Ancestor closure: every stored prefix has, for the same bucket, a
stored row for each of its ancestors up to and including the root. -/
def AncestorClosed (st : Store) : Prop :=
  ∀ k ∈ statusKeys st, ∀ q ∈ ancestorsWithRoot k.2, (k.1, q) ∈ statusKeys st

instance (st : Store) : Decidable (AncestorClosed st) := by
  unfold AncestorClosed
  infer_instance

theorem statusKeys_insertIgnore (st : Store) (row : PrefixRow) :
    statusKeys (insertIgnoreStatus st row) = statusKeys st ∨
      statusKeys (insertIgnoreStatus st row) = statusKeys st ++ [(row.bucket, row.pfx)] := by
  unfold insertIgnoreStatus
  split
  · exact Or.inl rfl
  · right
    simp [statusKeys]

theorem statusKeys_insertIgnore_self (st : Store) (row : PrefixRow) :
    (row.bucket, row.pfx) ∈ statusKeys (insertIgnoreStatus st row) := by
  unfold insertIgnoreStatus
  split
  case isTrue h =>
    rw [List.any_eq_true] at h
    obtain ⟨r, hr, hkey⟩ := h
    rw [decide_eq_true_eq] at hkey
    unfold statusKeys
    exact List.mem_map.mpr ⟨r, hr, by rw [hkey.1, hkey.2]⟩
  case isFalse =>
    unfold statusKeys
    simp

theorem statusKeys_replaceStatus (st : Store) (row : PrefixRow) :
    statusKeys (replaceStatus st row) = statusKeys st ∨
      statusKeys (replaceStatus st row) = statusKeys st ++ [(row.bucket, row.pfx)] := by
  unfold replaceStatus
  split
  · left
    unfold statusKeys
    simp only [List.map_map]
    apply List.map_congr_left
    intro r _
    simp only [Function.comp]
    split
    case isTrue h => rw [← h.1, ← h.2]
    case isFalse => rfl
  · right
    simp [statusKeys]

theorem statusKeys_replaceStatus_self (st : Store) (row : PrefixRow) :
    (row.bucket, row.pfx) ∈ statusKeys (replaceStatus st row) := by
  unfold replaceStatus
  split
  case isTrue h =>
    rw [List.any_eq_true] at h
    obtain ⟨r, hr, hkey⟩ := h
    rw [decide_eq_true_eq] at hkey
    unfold statusKeys
    dsimp only
    rw [List.map_map]
    refine List.mem_map.mpr ⟨r, hr, ?_⟩
    simp only [Function.comp]
    rw [if_pos hkey]
  case isFalse =>
    unfold statusKeys
    dsimp only
    simp

theorem statusKeys_mark (st : Store) (b p : Str) :
    statusKeys (mark_prefix_and_ancestors_incomplete st b p) = statusKeys st := by
  unfold mark_prefix_and_ancestors_incomplete statusKeys
  simp only [List.map_map]
  apply List.map_congr_left
  intro r _
  simp only [Function.comp]
  split <;> rfl

/-- Keys added by a fold of `insertIgnoreStatus` over default parent rows. -/
theorem ensureFold_mono (b : Str) (now : Int) :
    ∀ (L : List Str) (st : Store) (k : Str × Str), k ∈ statusKeys st →
      k ∈ statusKeys (L.foldl (fun s q => insertIgnoreStatus s (defaultParentRow b q now)) st) := by
  intro L
  induction L with
  | nil => intro st k hk; exact hk
  | cons q L2 ih =>
    intro st k hk
    apply ih
    rcases statusKeys_insertIgnore st (defaultParentRow b q now) with h | h <;> rw [h]
    · exact hk
    · exact List.mem_append_left _ hk

theorem ensureFold_bound (b : Str) (now : Int) :
    ∀ (L : List Str) (st : Store) (k : Str × Str),
      k ∈ statusKeys (L.foldl (fun s q => insertIgnoreStatus s (defaultParentRow b q now)) st) →
      k ∈ statusKeys st ∨ ∃ q ∈ L, k = (b, q) := by
  intro L
  induction L with
  | nil => intro st k hk; exact Or.inl hk
  | cons q L2 ih =>
    intro st k hk
    rcases ih _ k hk with h | ⟨q2, hq2, hk2⟩
    · rcases statusKeys_insertIgnore st (defaultParentRow b q now) with he | he <;> rw [he] at h
      · exact Or.inl h
      · rcases List.mem_append.mp h with h | h
        · exact Or.inl h
        · right
          refine ⟨q, List.mem_cons_self _ _, ?_⟩
          simpa [defaultParentRow] using h
    · exact Or.inr ⟨q2, List.mem_cons_of_mem _ hq2, hk2⟩

theorem ensureFold_adds (b : Str) (now : Int) :
    ∀ (L : List Str) (st : Store) (q : Str), q ∈ L →
      (b, q) ∈ statusKeys (L.foldl (fun s q => insertIgnoreStatus s (defaultParentRow b q now)) st) := by
  intro L
  induction L with
  | nil => intro st q hq; simp at hq
  | cons q0 L2 ih =>
    intro st q hq
    rcases List.mem_cons.mp hq with hq | hq
    · subst hq
      rw [List.foldl_cons]
      apply ensureFold_mono
      exact statusKeys_insertIgnore_self st (defaultParentRow b q now)
    · exact ih _ q hq

theorem ensure_mono (st : Store) (b p : Str) (now : Int) (k : Str × Str)
    (hk : k ∈ statusKeys st) : k ∈ statusKeys (ensure_parent_prefixes_exist st b p now) := by
  unfold ensure_parent_prefixes_exist
  rcases statusKeys_insertIgnore
      ((ancestorChain p).foldl (fun s q => insertIgnoreStatus s (defaultParentRow b q now)) st)
      (defaultParentRow b [] now) with h | h <;> rw [h]
  · exact ensureFold_mono b now _ st k hk
  · exact List.mem_append_left _ (ensureFold_mono b now _ st k hk)

theorem ensure_bound (st : Store) (b p : Str) (now : Int) (k : Str × Str)
    (hk : k ∈ statusKeys (ensure_parent_prefixes_exist st b p now)) :
    k ∈ statusKeys st ∨ (k.1 = b ∧ (k.2 ∈ ancestorChain p ∨ k.2 = [])) := by
  unfold ensure_parent_prefixes_exist at hk
  rcases statusKeys_insertIgnore
      ((ancestorChain p).foldl (fun s q => insertIgnoreStatus s (defaultParentRow b q now)) st)
      (defaultParentRow b [] now) with h | h <;> rw [h] at hk
  · rcases ensureFold_bound b now _ st k hk with h2 | ⟨q, hq, hk2⟩
    · exact Or.inl h2
    · subst hk2
      exact Or.inr ⟨rfl, Or.inl hq⟩
  · rcases List.mem_append.mp hk with hk | hk
    · rcases ensureFold_bound b now _ st k hk with h2 | ⟨q, hq, hk2⟩
      · exact Or.inl h2
      · subst hk2
        exact Or.inr ⟨rfl, Or.inl hq⟩
    · right
      have : k = (b, ([] : Str)) := by simpa [defaultParentRow] using hk
      subst this
      exact ⟨rfl, Or.inr rfl⟩

theorem ensure_adds_chain (st : Store) (b p : Str) (now : Int) (q : Str)
    (hq : q ∈ ancestorChain p) :
    (b, q) ∈ statusKeys (ensure_parent_prefixes_exist st b p now) := by
  unfold ensure_parent_prefixes_exist
  rcases statusKeys_insertIgnore
      ((ancestorChain p).foldl (fun s q => insertIgnoreStatus s (defaultParentRow b q now)) st)
      (defaultParentRow b [] now) with h | h <;> rw [h]
  · exact ensureFold_adds b now _ st q hq
  · exact List.mem_append_left _ (ensureFold_adds b now _ st q hq)

theorem ensure_adds_root (st : Store) (b p : Str) (now : Int) :
    (b, ([] : Str)) ∈ statusKeys (ensure_parent_prefixes_exist st b p now) := by
  unfold ensure_parent_prefixes_exist
  exact statusKeys_insertIgnore_self _ (defaultParentRow b [] now)

/-- `upsert_prefix_status` preserves ancestor closure (it materializes the
ancestors of the new row in the same transaction). -/
theorem upsert_preserves_closed (st : Store) (row : PrefixRow) (now : Int)
    (h : AncestorClosed st) : AncestorClosed (upsert_prefix_status st row now) := by
  intro k hk q hq
  unfold upsert_prefix_status at hk ⊢
  have hmono : ∀ k2 : Str × Str,
      k2 ∈ statusKeys (ensure_parent_prefixes_exist st row.bucket row.pfx now) →
      k2 ∈ statusKeys (replaceStatus (ensure_parent_prefixes_exist st row.bucket row.pfx now) row) := by
    intro k2 hk2
    rcases statusKeys_replaceStatus (ensure_parent_prefixes_exist st row.bucket row.pfx now) row
      with h2 | h2 <;> rw [h2]
    · exact hk2
    · exact List.mem_append_left _ hk2
  have hself : ∀ q2 ∈ ancestorsWithRoot row.pfx,
      (row.bucket, q2) ∈ statusKeys (ensure_parent_prefixes_exist st row.bucket row.pfx now) := by
    intro q2 hq2
    rcases List.mem_append.mp hq2 with hq2 | hq2
    · exact ensure_adds_chain st row.bucket row.pfx now q2 hq2
    · have : q2 = [] := by simpa using hq2
      subst this
      exact ensure_adds_root st row.bucket row.pfx now
  have hkey : k ∈ statusKeys (ensure_parent_prefixes_exist st row.bucket row.pfx now) ∨
      k = (row.bucket, row.pfx) := by
    rcases statusKeys_replaceStatus (ensure_parent_prefixes_exist st row.bucket row.pfx now) row
      with h2 | h2 <;> rw [h2] at hk
    · exact Or.inl hk
    · rcases List.mem_append.mp hk with hk | hk
      · exact Or.inl hk
      · exact Or.inr (by simpa using hk)
  rcases hkey with hk2 | hk2
  · -- the key was present after ancestor materialization
    rcases ensure_bound st row.bucket row.pfx now k hk2 with hold | ⟨hb, hanc⟩
    · -- an old key: closure of the old store, then monotonicity
      exact hmono _ (ensure_mono st row.bucket row.pfx now _ (h k hold q hq))
    · -- a key materialized by `ensure_parent_prefixes_exist`
      rcases hanc with hanc | hanc
      · -- k.2 is in the chain of row.pfx: its ancestors are also in the chain
        rcases List.mem_append.mp hq with hq2 | hq2
        · have : q ∈ ancestorChain row.pfx := ancestorChain_trans row.pfx k.2 hanc q hq2
          rw [hb]
          exact hmono _ (ensure_adds_chain st row.bucket row.pfx now q this)
        · have : q = [] := by simpa using hq2
          subst this
          rw [hb]
          exact hmono _ (ensure_adds_root st row.bucket row.pfx now)
      · -- k.2 is the root: its only ancestor is the root itself
        rw [hanc] at hq
        have : q = [] := by
          rcases List.mem_append.mp hq with hq2 | hq2
          · rw [ancestorChain_empty] at hq2; simp at hq2
          · simpa using hq2
        subst this
        rw [hb]
        exact hmono _ (ensure_adds_root st row.bucket row.pfx now)
  · -- the freshly upserted key: its ancestors were materialized
    subst hk2
    rcases List.mem_append.mp hq with hq2 | hq2
    · exact hmono _ (ensure_adds_chain st row.bucket row.pfx now q hq2)
    · have : q = [] := by simpa using hq2
      subst this
      exact hmono _ (ensure_adds_root st row.bucket row.pfx now)

/-- `mark_prefix_and_ancestors_incomplete` preserves ancestor closure (it
never changes the key set). -/
theorem mark_preserves_closed (st : Store) (b p : Str)
    (h : AncestorClosed st) : AncestorClosed (mark_prefix_and_ancestors_incomplete st b p) := by
  intro k hk q hq
  rw [statusKeys_mark] at hk ⊢
  exact h k hk q hq

/-- `cleanup_orphan_prefix_status` preserves ancestor closure: a surviving
row has a matching object, that object also matches every ancestor prefix
(`LIKE` transfers along string prefixes), and the root is never deleted. -/
theorem cleanup_preserves_closed (st : Store) (b : Str)
    (h : AncestorClosed st) : AncestorClosed (cleanup_orphan_prefix_status st b).1 := by
  intro k hk q hq
  unfold cleanup_orphan_prefix_status at hk ⊢
  simp only [statusKeys, List.mem_map] at hk
  obtain ⟨r, hr, hkey⟩ := hk
  rw [List.mem_filter] at hr
  have hmem : (k.1, q) ∈ statusKeys st := by
    apply h k _ q hq
    simp only [statusKeys, List.mem_map]
    exact ⟨r, hr.1, hkey⟩
  simp only [statusKeys, List.mem_map] at hmem
  obtain ⟨r2, hr2, hkey2⟩ := hmem
  simp only [statusKeys, List.mem_map]
  refine ⟨r2, ?_, hkey2⟩
  rw [List.mem_filter]
  refine ⟨hr2, ?_⟩
  rw [decide_eq_true_eq]
  intro hdel
  obtain ⟨hb2, hne2, hnomatch2⟩ := hdel
  -- r2 was deleted: same bucket b, non-root prefix q, no matching object.
  have hkb : r2.bucket = k.1 := congrArg Prod.fst hkey2
  have hkq : r2.pfx = q := congrArg Prod.snd hkey2
  have hrb : r.bucket = k.1 := congrArg Prod.fst hkey
  have hrp : r.pfx = k.2 := congrArg Prod.snd hkey
  -- q is not the root, so q is in the parent chain of k.2 and k.2 is non-root
  have hq2 : q ∈ ancestorChain k.2 := by
    rcases List.mem_append.mp hq with h2 | h2
    · exact h2
    · exact absurd (hkq.trans (by simpa using h2)) hne2
  have hpfxne : k.2 ≠ [] := by
    intro h0
    rw [h0, ancestorChain_empty] at hq2
    simp at hq2
  -- r itself survived the filter, so some object matches `k.2 ++ %`
  have hrkeep := hr.2
  rw [decide_eq_true_eq] at hrkeep
  have hrmatch : hasMatchingObject st.objects r = true := by
    by_contra hno
    refine hrkeep ⟨?_, ?_, ?_⟩
    · rw [hrb, ← hkb]; exact hb2
    · rw [hrp]; exact hpfxne
    · simpa using hno
  unfold hasMatchingObject at hrmatch
  rw [List.any_eq_true] at hrmatch
  obtain ⟨o, ho, hom⟩ := hrmatch
  rw [Bool.and_eq_true, decide_eq_true_eq] at hom
  -- that object also matches `q ++ %`
  have hpre : q <+: r.pfx := by
    rw [hrp]
    exact ancestorChain_isPrefix k.2 q hq2
  have htrans : likeMatch (q ++ ['%']) o.key = true :=
    likeMatch_pfx_transfer hpre hom.2
  have hmatch2 : hasMatchingObject st.objects r2 = true := by
    unfold hasMatchingObject
    rw [List.any_eq_true]
    refine ⟨o, ho, ?_⟩
    rw [Bool.and_eq_true, decide_eq_true_eq]
    constructor
    · rw [hom.1, hrb, ← hkb]
    · rw [hkq]; exact htrans
  rw [hmatch2] at hnomatch2
  exact absurd hnomatch2 (by simp)

/-- The five public prefix-status operations named by claim C1. -/
inductive PrefixOp where
  | upsert (row : PrefixRow) (now : Int)
  | batchUpsert (rows : List PrefixRow)
  | markAncestors (b p : Str)
  | deleteStatus (b p : Str)
  | cleanup (b : Str)

def applyPrefixOp (st : Store) : PrefixOp → Store
  | .upsert row now => upsert_prefix_status st row now
  | .batchUpsert rows => batch_upsert_prefix_status st rows
  | .markAncestors b p => mark_prefix_and_ancestors_incomplete st b p
  | .deleteStatus b p => delete_prefix_status st b p
  | .cleanup b => (cleanup_orphan_prefix_status st b).1

def runPrefixOps (ops : List PrefixOp) (st : Store) : Store := ops.foldl applyPrefixOp st

/-- The subset of those operations that do preserve ancestor closure. -/
inductive SafePrefixOp where
  | upsert (row : PrefixRow) (now : Int)
  | markAncestors (b p : Str)
  | cleanup (b : Str)

def applySafePrefixOp (st : Store) : SafePrefixOp → Store
  | .upsert row now => upsert_prefix_status st row now
  | .markAncestors b p => mark_prefix_and_ancestors_incomplete st b p
  | .cleanup b => (cleanup_orphan_prefix_status st b).1

def runSafePrefixOps (ops : List SafePrefixOp) (st : Store) : Store :=
  ops.foldl applySafePrefixOp st


theorem closed_empty : AncestorClosed Store.empty := by
  intro k hk
  simp [statusKeys, Store.empty] at hk

/-- C1 (counterexample): starting from the empty store, the single
operation `batch_upsert_prefix_status` with one row for prefix `"a/b/"`
stores that row without any row for its ancestors `"a/"` and `""`
(the batch statement does not materialize ancestors); likewise, an
`upsert_prefix_status` of `"a/b/"` followed by `delete_prefix_status` of
`"a/"` leaves `"a/b/"` stored with the ancestor `"a/"` missing. -/
theorem C1_counterexample :
    ¬ AncestorClosed (runPrefixOps
      [PrefixOp.batchUpsert [⟨"bkt".toList, "a/b/".toList, true, 0, 0, none, none, none, none⟩]]
      Store.empty) ∧
    ¬ AncestorClosed (runPrefixOps
      [PrefixOp.upsert ⟨"bkt".toList, "a/b/".toList, true, 1, 2, none, none, none, none⟩ 0,
       PrefixOp.deleteStatus "bkt".toList "a/".toList]
      Store.empty) := by
  constructor <;> decide

/-- C1 (amended): starting from an empty index store, after any sequence
of `upsert_prefix_status`, `mark_prefix_and_ancestors_incomplete` and
`cleanup_orphan_prefix_status`, every stored `PrefixStatus` row has, for
the same bucket, a row for each ancestor prefix up to and including the
root; `batch_upsert_prefix_status` and `delete_prefix_status` are excluded
because they can break the closure (see the counterexample). -/
theorem C1_ancestor_closure_amended :
    ∀ ops : List SafePrefixOp, AncestorClosed (runSafePrefixOps ops Store.empty) := by
  have step : ∀ (ops : List SafePrefixOp) (st : Store), AncestorClosed st →
      AncestorClosed (runSafePrefixOps ops st) := by
    intro ops
    induction ops with
    | nil => intro st h; exact h
    | cons op rest ih =>
      intro st h
      show AncestorClosed (runSafePrefixOps rest (applySafePrefixOp st op))
      apply ih
      cases op with
      | upsert row now => exact upsert_preserves_closed st row now h
      | markAncestors b p => exact mark_preserves_closed st b p h
      | cleanup b => exact cleanup_preserves_closed st b h
  intro ops
  exact step ops Store.empty closed_empty

/-! ### Completeness watermark shortcut (claim C2, spec S3) -/

/-- The store of scenario S3: only `"archive/x"` and `"data/y"` indexed,
the root prefix-status row carries watermark `last_indexed_key = "data/y"`,
and there is no `bucket_info` row (so `initial_index_completed` reads as
false). -/
def watermarkStore : Store :=
  { objects :=
      [⟨"b".toList, "archive/x".toList, none, 1, "archive/".toList, "x".toList, 1, false, 0⟩,
       ⟨"b".toList, "data/y".toList, none, 1, "data/".toList, "y".toList, 1, false, 0⟩],
    statuses :=
      [⟨"b".toList, [], false, 2, 2, none, some "data/y".toList, some 0, none⟩],
    buckets := [] }

/-- C2: when `initial_index_completed` is false and the prefix is
non-empty, if the root watermark's top-level segment is strictly greater
than the prefix trimmed of its trailing slashes, or the watermark is
lexicographically greater than the prefix without starting with it, then
`is_prefix_complete` returns true; in particular, with only
`"archive/x"` and `"data/y"` indexed and root watermark `"data/y"`,
`is_prefix_complete` is true at `"archive/"` and false at `"data/"`. -/
theorem C2_watermark_shortcut :
    (∀ (st : Store) (b p lk : Str),
      ((get_bucket_info st b).map (fun r => r.initial_index_completed)).getD false = false →
      p ≠ [] →
      (getStatus st b []).bind (fun r => r.last_indexed_key) = some lk →
      (strLt (trimEndSlashes p) (lk.takeWhile (fun c => c ≠ '/')) = true ∨
        (strLt p lk = true ∧ startsWith p lk = false)) →
      is_prefix_complete st b p = true) ∧
    (is_prefix_complete watermarkStore "b".toList "archive/".toList = true ∧
      is_prefix_complete watermarkStore "b".toList "data/".toList = false) := by
  constructor
  · intro st b p lk hflag hp hlk hcond
    unfold is_prefix_complete
    rw [hflag, hlk]
    dsimp only
    rw [if_pos hp]
    rcases hcond with hcond | hcond
    · rw [hcond]
      rfl
    · cases hfs : strLt (trimEndSlashes p) (lk.takeWhile (fun c => c ≠ '/')) with
      | true => rfl
      | false =>
        rw [hcond.1, hcond.2]
        rfl
  · constructor
    · decide
    · decide

/-- Witness for C2: the general shortcut applied to the S3 scenario store
at prefix `"archive/"` with watermark `"data/y"`. -/
theorem C2_watermark_shortcut_witness :
    ((getStatus watermarkStore "b".toList []).bind (fun r => r.last_indexed_key) =
        some "data/y".toList) ∧
      is_prefix_complete watermarkStore "b".toList "archive/".toList = true :=
  ⟨by decide,
    C2_watermark_shortcut.1 watermarkStore "b".toList "archive/".toList "data/y".toList
      (by decide) (by decide) (by decide) (Or.inl (by decide))⟩

/-! ### Batch upsert count (claim C8) -/

/-- C8: `upsert_objects_batch` returns the length of its input slice (every
row is counted, duplicates included, since `INSERT OR REPLACE` replaces
conflicting rows rather than skipping them), and the empty slice returns
`Ok(0)` without touching the database. -/
theorem C8_batch_upsert_count (st : Store) (objs : List ObjRow) :
    (upsert_objects_batch st objs).2 = objs.length ∧
      (objs = [] → (upsert_objects_batch st objs).1 = st) := by
  constructor
  · unfold upsert_objects_batch
    split
    case isTrue h => rw [h]; rfl
    case isFalse => rfl
  · intro h
    subst h
    rfl

/-- Witness for C8 at the empty slice and the empty store. -/
theorem C8_batch_upsert_count_witness :
    (upsert_objects_batch Store.empty []).2 = 0 ∧
      (upsert_objects_batch Store.empty []).1 = Store.empty :=
  ⟨(C8_batch_upsert_count Store.empty []).1, (C8_batch_upsert_count Store.empty []).2 rfl⟩

/-! ### Transfer cancellation (claim C10, commands.rs) -/

/-- The progress statuses of §4.6 (models.rs `UploadStatus` and the
download counterpart in commands.rs). -/
inductive TransferStatus where
  | pending
  | starting
  | uploading
  | downloading
  | completed
  | failed
  | cancelled
deriving DecidableEq

/-- An entry of the `active_uploads` / `active_downloads` registries: the
cancel channel and task handle are effects owned by the runtime; the
metadata recorded with them is the file name and size. -/
structure TransferTask where
  file_name : Str
  file_size : Nat
deriving DecidableEq

/-- A progress event as emitted by the cancel commands. -/
structure TransferEvt where
  id : Str
  file_name : Str
  file_size : Nat
  bytes : Nat
  status : TransferStatus
  error : Option Str
deriving DecidableEq

deriving instance DecidableEq for Except

/-- Outcome of a cancel command: the registry afterwards, the events
emitted, and the command's `Result`. -/
structure CancelOutcome where
  registry : List (Str × TransferTask)
  emitted : List TransferEvt
  result : Except Str Unit
deriving DecidableEq

/-- `HashMap::remove`: drop the entry with the given key. -/
def removeKey (reg : List (Str × TransferTask)) (id : Str) : List (Str × TransferTask) :=
  reg.filter (fun e => ¬ e.1 = id)

/-- `commands.rs cancel_download`: remove the task from the registry; when
one was present, send the cancel signal, emit a `Cancelled` event and abort
the task; in every case return `Ok(())`. -/
def cancel_download (reg : List (Str × TransferTask)) (id : Str) : CancelOutcome :=
  match reg.find? (fun e => decide (e.1 = id)) with
  | some e =>
    { registry := removeKey reg id,
      emitted := [⟨id, e.2.file_name, e.2.file_size, 0, TransferStatus.cancelled,
        some "Download cancelled by user".toList⟩],
      result := Except.ok () }
  | none => { registry := removeKey reg id, emitted := [], result := Except.ok () }

/-- `commands.rs cancel_upload`: like `cancel_download` when the task is
present (the event is emitted before signalling), but an unknown id is an
error: `Err("Upload {id} not found")`. -/
def cancel_upload (reg : List (Str × TransferTask)) (id : Str) : CancelOutcome :=
  match reg.find? (fun e => decide (e.1 = id)) with
  | some e =>
    { registry := removeKey reg id,
      emitted := [⟨id, e.2.file_name, e.2.file_size, 0, TransferStatus.cancelled,
        some "Upload cancelled by user".toList⟩],
      result := Except.ok () }
  | none =>
    { registry := removeKey reg id, emitted := [],
      result := Except.error (("Upload ".toList ++ id) ++ " not found".toList) }

/-- C10: cancelling a download id absent from the registry returns
`Ok(())`, emits no event and leaves the registry unchanged, whereas
cancelling an unknown upload id returns the error `"Upload {id} not
found"`. -/
theorem C10_cancel_unknown_download (reg : List (Str × TransferTask)) (id : Str)
    (h : reg.find? (fun e => decide (e.1 = id)) = none) :
    cancel_download reg id = { registry := reg, emitted := [], result := Except.ok () } ∧
      (cancel_upload reg id).result =
        Except.error (("Upload ".toList ++ id) ++ " not found".toList) := by
  have hreg : removeKey reg id = reg := by
    unfold removeKey
    rw [List.filter_eq_self]
    intro e he
    have h2 := List.find?_eq_none.mp h e he
    simpa using h2
  constructor
  · unfold cancel_download
    rw [h, hreg]
  · unfold cancel_upload
    rw [h]

/-- Witness for C10: a one-entry registry and an id not in it. -/
theorem C10_cancel_unknown_download_witness :
    (([((("a".toList : Str), (⟨"f".toList, 5⟩ : TransferTask)))].find?
        (fun e => decide (e.1 = "z".toList))) = none) ∧
      cancel_download [("a".toList, ⟨"f".toList, 5⟩)] "z".toList =
        { registry := [("a".toList, ⟨"f".toList, 5⟩)], emitted := [],
          result := Except.ok () } :=
  ⟨by decide,
    (C10_cancel_unknown_download [("a".toList, ⟨"f".toList, 5⟩)] "z".toList (by decide)).1⟩

/-! ### Cache metrics (claim C7, cache_manager.rs) -/

/-- The four atomic counters of `CacheMetrics`. -/
structure CacheMetrics where
  hits : Nat
  misses : Nat
  evictions : Nat
  insertions : Nat
deriving DecidableEq

/-- `CacheMetricsSnapshot` (cache_manager.rs); `hit_rate` is an `f64` in
the source, idealized here as a rational — exact at every value the
theorems below evaluate it on. -/
structure CacheMetricsSnapshot where
  hits : Nat
  misses : Nat
  evictions : Nat
  insertions : Nat
  hit_rate : ℚ
deriving DecidableEq

/-- `CacheMetrics::snapshot` (cache_manager.rs): the hit rate is computed
as a percentage, `(hits / total) * 100.0`, or `0.0` when `total = 0`. -/
def CacheMetrics.snapshot (m : CacheMetrics) : CacheMetricsSnapshot :=
  let total := m.hits + m.misses
  { hits := m.hits, misses := m.misses, evictions := m.evictions,
    insertions := m.insertions,
    hit_rate := if 0 < total then ((m.hits : ℚ) / (total : ℚ)) * 100 else 0 }

/-- `ManagedCache` (cache_manager.rs): the moka cache is modelled as an
association list.  Background LRU/TTL eviction belongs to the external
moka crate and is not triggered by any modelled sequence. -/
structure MCache (V : Type) where
  entries : List (Str × V)
  metrics : CacheMetrics

/-- A fresh cache: no entries, zeroed counters. -/
def MCache.empty {V : Type} : MCache V := ⟨[], ⟨0, 0, 0, 0⟩⟩

/-- `ManagedCache::get`: a present key records a hit and returns the
value, otherwise a miss is recorded. -/
def MCache.get {V : Type} (c : MCache V) (k : Str) : MCache V × Option V :=
  match c.entries.find? (fun e => decide (e.1 = k)) with
  | some e =>
    ({ c with metrics := { c.metrics with hits := c.metrics.hits + 1 } }, some e.2)
  | none =>
    ({ c with metrics := { c.metrics with misses := c.metrics.misses + 1 } }, none)

/-- `ManagedCache::insert`: record an insertion and store the value
(replacing the key's previous value, as moka does). -/
def MCache.insert {V : Type} (c : MCache V) (k : Str) (v : V) : MCache V :=
  { entries := (c.entries.filter (fun e => ¬ e.1 = k)) ++ [(k, v)],
    metrics := { c.metrics with insertions := c.metrics.insertions + 1 } }

/-- `ManagedCache::get_or_insert_with` (cache_manager.rs): check the cache
first; on a miss run `init`; an error is returned without caching, a value
is inserted and returned. -/
def MCache.get_or_insert_with {V E : Type} (c : MCache V) (k : Str) (init : Except E V) :
    MCache V × Except E V :=
  match MCache.get c k with
  | (c2, some v) => (c2, Except.ok v)
  | (c2, none) =>
    match init with
    | Except.error e => (c2, Except.error e)
    | Except.ok v => (MCache.insert c2 k v, Except.ok v)

/-- A sequence of public cache operations. -/
inductive CacheOp (V : Type) where
  | get (k : Str)
  | insert (k : Str) (v : V)

def applyCacheOp {V : Type} (c : MCache V) : CacheOp V → MCache V
  | .get k => (MCache.get c k).1
  | .insert k v => MCache.insert c k v

def runCacheOps {V : Type} (ops : List (CacheOp V)) (c : MCache V) : MCache V :=
  ops.foldl applyCacheOp c

def isGetOp {V : Type} : CacheOp V → Bool
  | .get _ => true
  | .insert _ _ => false

theorem MCache_get_counts {V : Type} (c : MCache V) (k : Str) :
    (MCache.get c k).1.metrics.hits + (MCache.get c k).1.metrics.misses =
      c.metrics.hits + c.metrics.misses + 1 := by
  unfold MCache.get
  split
  · dsimp only
    omega
  · dsimp only
    omega

theorem runCacheOps_gets {V : Type} : ∀ (ops : List (CacheOp V)) (c : MCache V),
    (runCacheOps ops c).metrics.hits + (runCacheOps ops c).metrics.misses =
      c.metrics.hits + c.metrics.misses + (ops.filter isGetOp).length := by
  intro ops
  induction ops with
  | nil => intro c; simp [runCacheOps]
  | cons op rest ih =>
    intro c
    show (runCacheOps rest (applyCacheOp c op)).metrics.hits +
        (runCacheOps rest (applyCacheOp c op)).metrics.misses = _
    rw [ih]
    cases op with
    | get k =>
      have hg := MCache_get_counts c k
      simp [applyCacheOp, List.filter_cons, isGetOp]
      omega
    | insert k v =>
      simp [applyCacheOp, MCache.insert, List.filter_cons, isGetOp]

/-- C7 (counterexample): after `insert "k" 1; get "k"; get "m"` starting
from a fresh cache, `hits = misses = 1` and the snapshot reports
`hit_rate = 50` — a percentage — whereas the claimed formula
`hits / (hits + misses)` gives `1/2`. -/
theorem C7_counterexample :
    ((runCacheOps [CacheOp.insert "k".toList 1, CacheOp.get "k".toList, CacheOp.get "m".toList]
        (MCache.empty : MCache Nat)).metrics.snapshot.hit_rate = 50) ∧
    ¬ ((runCacheOps [CacheOp.insert "k".toList 1, CacheOp.get "k".toList, CacheOp.get "m".toList]
        (MCache.empty : MCache Nat)).metrics.snapshot.hit_rate =
      (((runCacheOps [CacheOp.insert "k".toList 1, CacheOp.get "k".toList, CacheOp.get "m".toList]
        (MCache.empty : MCache Nat)).metrics.hits : ℚ) /
       (((runCacheOps [CacheOp.insert "k".toList 1, CacheOp.get "k".toList, CacheOp.get "m".toList]
        (MCache.empty : MCache Nat)).metrics.hits : ℚ) +
        ((runCacheOps [CacheOp.insert "k".toList 1, CacheOp.get "k".toList, CacheOp.get "m".toList]
        (MCache.empty : MCache Nat)).metrics.misses : ℚ)))) := by
  have hm : (runCacheOps [CacheOp.insert "k".toList 1, CacheOp.get "k".toList,
      CacheOp.get "m".toList] (MCache.empty : MCache Nat)).metrics = ⟨1, 1, 0, 1⟩ := by
    decide
  rw [hm]
  unfold CacheMetrics.snapshot
  norm_num

/-- C7 (amended): for every sequence of cache operations, the snapshot's
`hit_rate` equals `100 * hits / (hits + misses)` when `hits + misses > 0`
and `0` otherwise (the source reports a percentage, not a ratio), where
`hits + misses` is exactly the number of `get` operations performed. -/
theorem C7_hit_rate_amended {V : Type} (ops : List (CacheOp V)) :
    ((runCacheOps ops MCache.empty).metrics.snapshot.hit_rate =
      (if 0 < (runCacheOps ops MCache.empty).metrics.hits +
          (runCacheOps ops MCache.empty).metrics.misses
       then (((runCacheOps ops MCache.empty).metrics.hits : ℚ) /
          (((runCacheOps ops MCache.empty).metrics.hits : ℚ) +
            ((runCacheOps ops MCache.empty).metrics.misses : ℚ))) * 100
       else 0)) ∧
    (runCacheOps ops MCache.empty).metrics.hits +
        (runCacheOps ops MCache.empty).metrics.misses =
      (ops.filter isGetOp).length := by
  constructor
  · unfold CacheMetrics.snapshot
    dsimp only
    rw [Nat.cast_add]
  · rw [runCacheOps_gets]
    simp [MCache.empty]

/-! ### At-most-one cache build (claim C6, cache_manager.rs)

`ManagedCache::get_or_insert_with` is `self.get(&key)` followed — on a miss
— by `init()` and `self.insert(key, value)`. The moka `get` and `insert`
calls are individually atomic, but no lock is held across the three steps,
so two concurrent callers interleave them. The interleaving is modelled as
a step relation driven by an explicit schedule. -/

/-- The program counter of one caller inside `get_or_insert_with`. -/
inductive GPhase where
  | checkCache
  | runInit
  | insertVal
  | finished
deriving DecidableEq

/-- One caller: its phase, whether it has run `init` (ghost), and the
value it returned. -/
structure Caller where
  phase : GPhase
  inited : Bool
  result : Option Nat
deriving DecidableEq

/-- The shared state for one contended key: the cache slot, the number of
`init` invocations so far (ghost), and the two callers. -/
structure GSys where
  cache : Option Nat
  initCount : Nat
  c0 : Caller
  c1 : Caller
deriving DecidableEq

/-- One atomic step of `get_or_insert_with` for a caller whose successful
`init` produces `v`: check the cache (hit returns the cached value, miss
proceeds), run `init`, or insert and return the built value. -/
def stepCaller (v : Nat) (cache : Option Nat) (cl : Caller) (ic : Nat) :
    Option Nat × Caller × Nat :=
  match cl.phase with
  | .checkCache =>
    match cache with
    | some w => (cache, { cl with phase := .finished, result := some w }, ic)
    | none => (cache, { cl with phase := .runInit }, ic)
  | .runInit => (cache, { cl with phase := .insertVal, inited := true }, ic + 1)
  | .insertVal => (some v, { cl with phase := .finished, result := some v }, ic)
  | .finished => (cache, cl, ic)

/-- Schedule step: `false` steps caller 0 (init value `v0`), `true` steps
caller 1 (init value `v1`). -/
def stepSys (v0 v1 : Nat) (s : GSys) : Bool → GSys
  | false =>
    let r := stepCaller v0 s.cache s.c0 s.initCount
    { cache := r.1, initCount := r.2.2, c0 := r.2.1, c1 := s.c1 }
  | true =>
    let r := stepCaller v1 s.cache s.c1 s.initCount
    { cache := r.1, initCount := r.2.2, c0 := s.c0, c1 := r.2.1 }

/-- Run an interleaving schedule. -/
def runSched (v0 v1 : Nat) (sched : List Bool) (s : GSys) : GSys :=
  sched.foldl (stepSys v0 v1) s

/-- Both callers about to look up the same missing key. -/
def GSys.start : GSys :=
  { cache := none, initCount := 0,
    c0 := ⟨GPhase.checkCache, false, none⟩, c1 := ⟨GPhase.checkCache, false, none⟩ }

def cntInit (c : Caller) : Nat := if c.inited then 1 else 0

def CallerOK (c : Caller) : Prop :=
  (c.phase = GPhase.checkCache ∨ c.phase = GPhase.runInit) → c.inited = false

/-- A caller's returned value, if any, was produced by one of the two
`init` calls. -/
def ResOK (v0 v1 : Nat) (c : Caller) : Prop :=
  c.result = none ∨ c.result = some v0 ∨ c.result = some v1

def GInv (v0 v1 : Nat) (s : GSys) : Prop :=
  s.initCount = cntInit s.c0 + cntInit s.c1 ∧
  CallerOK s.c0 ∧ CallerOK s.c1 ∧
  (s.cache = none ∨ s.cache = some v0 ∨ s.cache = some v1) ∧
  ResOK v0 v1 s.c0 ∧ ResOK v0 v1 s.c1

theorem GInv_step (v0 v1 : Nat) (s : GSys) (h : GInv v0 v1 s) (t : Bool) :
    GInv v0 v1 (stepSys v0 v1 s t) := by
  obtain ⟨cache, ic, ⟨ph0, in0, r0⟩, ⟨ph1, in1, r1⟩⟩ := s
  obtain ⟨hic, h0, h1, hc, hr0, hr1⟩ := h
  rcases hc with hc | hc | hc <;> subst hc <;>
    cases t <;> cases ph0 <;> cases ph1 <;>
    simp_all [stepSys, stepCaller, GInv, cntInit, CallerOK, ResOK] <;>
    omega

theorem GInv_run (v0 v1 : Nat) : ∀ (sched : List Bool) (s : GSys), GInv v0 v1 s →
    GInv v0 v1 (runSched v0 v1 sched s) := by
  intro sched
  induction sched with
  | nil => intro s h; exact h
  | cons t rest ih =>
    intro s h
    exact ih (stepSys v0 v1 s t) (GInv_step v0 v1 s h t)

theorem GInv_start_holds (v0 v1 : Nat) : GInv v0 v1 GSys.start := by
  refine ⟨rfl, ?_, ?_, Or.inl rfl, Or.inl rfl, Or.inl rfl⟩ <;> exact fun _ => rfl

/-- C6 (counterexample): with init values 7 and 9, the interleaving
check₀, check₁, init₀, insert₀, init₁, insert₁ lets both callers miss:
`init` runs twice — not exactly once — and the callers return different
values (7 and 9), refuting "init is called exactly once under a per-key
lock and all callers receive the value of that single call". -/
theorem C6_counterexample :
    (runSched 7 9 [false, true, false, false, true, true] GSys.start).initCount = 2 ∧
    (runSched 7 9 [false, true, false, false, true, true] GSys.start).c0.phase =
      GPhase.finished ∧
    (runSched 7 9 [false, true, false, false, true, true] GSys.start).c1.phase =
      GPhase.finished ∧
    (runSched 7 9 [false, true, false, false, true, true] GSys.start).c0.result = some 7 ∧
    (runSched 7 9 [false, true, false, false, true, true] GSys.start).c1.result = some 9 := by
  decide

/-- C6 (amended): `get_or_insert_with` performs an unsynchronized
check-then-insert with no per-key lock, so under concurrent contention on
the same missing key `init` may run once per caller: over every
interleaving, the number of `init` invocations equals the number of
callers that ran `init` (hence at most one per caller and at most two in
total), every value a caller receives was produced by one of the `init`
calls, and a fully sequential execution runs `init` exactly once. -/
theorem C6_cache_build_amended (v0 v1 : Nat) (sched : List Bool) :
    ((runSched v0 v1 sched GSys.start).initCount =
      cntInit (runSched v0 v1 sched GSys.start).c0 +
        cntInit (runSched v0 v1 sched GSys.start).c1) ∧
    (runSched v0 v1 sched GSys.start).initCount ≤ 2 ∧
    ResOK v0 v1 (runSched v0 v1 sched GSys.start).c0 ∧
    ResOK v0 v1 (runSched v0 v1 sched GSys.start).c1 ∧
    ((runSched v0 v1 [false, false, false] GSys.start).initCount = 1 ∧
      (runSched v0 v1 [false, false, false] GSys.start).c0.result = some v0) := by
  obtain ⟨hic, _, _, _, hr0, hr1⟩ :=
    GInv_run v0 v1 sched GSys.start (GInv_start_holds v0 v1)
  refine ⟨hic, ?_, hr0, hr1, rfl, rfl⟩
  rw [hic]
  unfold cntInit
  split <;> split <;> omega

/-! ### C3: multipart upload part arithmetic (`commands.rs` `perform_upload`, lines 1161-1342)

`perform_upload` compares the file size against
`multipart_threshold_mb.unwrap_or(50) * 1024 * 1024`; below the threshold a
single `put_object` uploads the whole file.  Otherwise `PART_SIZE` is 10 MiB,
`total_parts = file_size.div_ceil(PART_SIZE) as i32` (an `i32` cast), and the
loop `for part_number in 1..=total_parts` checks the cancel flag, uploads
`length = min(PART_SIZE, file_size - offset)` bytes and emits a progress
event carrying the cumulative uploaded byte count after every part.  The
model keeps the byte stream abstract: a run records which parts were
uploaded and which progress events fired, with cancellation driven by an
optional part index at which the cancel flag is first observed. -/

set_option maxRecDepth 4000

def PART_SIZE : Nat := 10 * 1024 * 1024

/-- `usize::div_ceil` on the sizes involved. -/
def divCeil (a b : Nat) : Nat := a / b + (if a % b = 0 then 0 else 1)

theorem PART_SIZE_eq : PART_SIZE = 10485760 := by norm_num [PART_SIZE]

/-- The `as i32` cast of `total_parts` (two's-complement wrap). -/
def toI32 (n : Nat) : Int :=
  if n % 2 ^ 32 < 2 ^ 31 then ((n % 2 ^ 32 : Nat) : Int)
  else ((n % 2 ^ 32 : Nat) : Int) - 2 ^ 32

structure PartUpload where
  part_number : Int
  length : Nat
deriving DecidableEq

/-- One `upload-progress` event: `uploaded_bytes`, `uploaded_parts`,
`total_parts` as emitted in the multipart loop. -/
structure UploadEvt where
  uploaded_bytes : Nat
  uploaded_parts : Int
  total_parts : Int
deriving DecidableEq

/-- Whether the cancel flag is observed at the check before part `n`. -/
def cancelFiredAt (cancelAt : Option Nat) (n : Nat) : Bool :=
  match cancelAt with
  | none => false
  | some k => decide (k ≤ n)

/-- The `for part_number in 1..=total_parts` loop: `rem` iterations remain,
the next part number is `n`, and `uploaded` bytes have been sent.  Returns
the uploaded parts, the emitted events, and whether the loop stopped on the
cancel check. -/
def uploadLoop (S : Nat) (tp : Int) (cancelAt : Option Nat) :
    Nat → Nat → Nat → List PartUpload × List UploadEvt × Bool
  | 0, _, _ => ([], [], false)
  | rem + 1, n, uploaded =>
    if cancelFiredAt cancelAt n then ([], [], true)
    else
      let len := min PART_SIZE (S - (n - 1) * PART_SIZE)
      let up2 := uploaded + len
      let rest := uploadLoop S tp cancelAt rem (n + 1) up2
      (⟨(n : Int), len⟩ :: rest.1,
       ⟨up2, (n : Int), tp⟩ :: rest.2.1,
       rest.2.2)

structure UploadRun where
  multipart : Bool
  total_parts : Int
  parts : List PartUpload
  events : List UploadEvt
  cancelled : Bool
deriving DecidableEq

/-- `perform_upload` (`commands.rs:1161`): threshold check, then either the
simple-upload branch or the multipart loop over `1..=total_parts`.  A Rust
`for` over `1..=tp` with `tp : i32` runs `tp.toNat` iterations when `tp` is
positive and none otherwise. -/
def perform_upload (S : Nat) (threshold_mb : Option Nat) (cancelAt : Option Nat) : UploadRun :=
  let threshold := (threshold_mb.getD 50) * 1024 * 1024
  if S < threshold then
    { multipart := false, total_parts := 0, parts := [], events := [],
      cancelled := cancelFiredAt cancelAt 0 }
  else
    let tp := toI32 (divCeil S PART_SIZE)
    let nIter := if tp ≤ 0 then 0 else tp.toNat
    let r := uploadLoop S tp cancelAt nIter 1 0
    { multipart := true, total_parts := tp, parts := r.1, events := r.2.1,
      cancelled := r.2.2 }

/-- Length of part `n` as computed by the loop body. -/
def partLenSpec (S n : Nat) : Nat := min PART_SIZE (S - (n - 1) * PART_SIZE)

/-- The parts produced by `rem` uncancelled iterations starting at part `n`. -/
def partsFrom (S : Nat) : Nat → Nat → List PartUpload
  | 0, _ => []
  | rem + 1, n => ⟨(n : Int), partLenSpec S n⟩ :: partsFrom S rem (n + 1)

/-- The events produced by `rem` uncancelled iterations starting at part `n`
with `up` bytes already uploaded. -/
def evtsFrom (S : Nat) (tp : Int) : Nat → Nat → Nat → List UploadEvt
  | 0, _, _ => []
  | rem + 1, n, up =>
    ⟨up + partLenSpec S n, (n : Int), tp⟩ :: evtsFrom S tp rem (n + 1) (up + partLenSpec S n)

/-- Running sums of a list starting from `up`. -/
def sumsFrom (up : Nat) : List Nat → List Nat
  | [] => []
  | l :: ls => (up + l) :: sumsFrom (up + l) ls

theorem uploadLoop_none (S : Nat) (tp : Int) : ∀ (rem n up : Nat),
    uploadLoop S tp none rem n up =
      (partsFrom S rem n, evtsFrom S tp rem n up, false) := by
  intro rem
  induction rem with
  | zero => intro n up; rfl
  | succ r ih =>
    intro n up
    show uploadLoop S tp none (r + 1) n up = _
    unfold uploadLoop
    rw [if_neg (by simp [cancelFiredAt])]
    dsimp only
    rw [ih (n + 1)]
    rfl

theorem partsFrom_map_pn (S : Nat) : ∀ (rem n : Nat),
    (partsFrom S rem n).map (fun pt => pt.part_number) =
      (List.range rem).map (fun i => ((n + i : Nat) : Int)) := by
  intro rem
  induction rem with
  | zero => intro n; rfl
  | succ r ih =>
    intro n
    unfold partsFrom
    rw [List.map_cons, ih (n + 1), List.range_succ_eq_map, List.map_cons, List.map_map]
    simp only [List.cons.injEq]
    constructor
    · norm_num
    · apply List.map_congr_left
      intro i _
      simp only [Function.comp_apply]
      omega

theorem partsFrom_map_len (S : Nat) : ∀ (rem n : Nat),
    (partsFrom S rem n).map (fun pt => pt.length) =
      (List.range rem).map (fun i => partLenSpec S (n + i)) := by
  intro rem
  induction rem with
  | zero => intro n; rfl
  | succ r ih =>
    intro n
    unfold partsFrom
    rw [List.map_cons, ih (n + 1), List.range_succ_eq_map, List.map_cons, List.map_map]
    simp only [List.cons.injEq]
    constructor
    · rfl
    · apply List.map_congr_left
      intro i _
      simp only [Function.comp_apply]
      congr 1
      omega

theorem partsFrom_length (S : Nat) : ∀ (rem n : Nat), (partsFrom S rem n).length = rem := by
  intro rem
  induction rem with
  | zero => intro n; rfl
  | succ r ih =>
    intro n
    unfold partsFrom
    rw [List.length_cons, ih (n + 1)]

theorem evtsFrom_map_bytes (S : Nat) (tp : Int) : ∀ (rem n up : Nat),
    (evtsFrom S tp rem n up).map (fun e => e.uploaded_bytes) =
      sumsFrom up ((partsFrom S rem n).map (fun pt => pt.length)) := by
  intro rem
  induction rem with
  | zero => intro n up; rfl
  | succ r ih =>
    intro n up
    unfold evtsFrom partsFrom
    rw [List.map_cons, ih (n + 1) (up + partLenSpec S n), List.map_cons]
    rfl

theorem divCeil_pos (S : Nat) (h : 0 < S) : 0 < divCeil S PART_SIZE := by
  unfold divCeil
  rw [PART_SIZE_eq]
  split_ifs <;> omega

theorem lens_shift (S : Nat) : ∀ (rem n : Nat), 1 ≤ n →
    (partsFrom S rem (n + 1)).map (fun pt => pt.length) =
      (partsFrom (S - PART_SIZE) rem n).map (fun pt => pt.length) := by
  intro rem
  induction rem with
  | zero => intro n hn; simp [partsFrom]
  | succ r ih =>
    intro n hn
    unfold partsFrom
    rw [List.map_cons]
    rw [List.map_cons]
    have hih := ih (n + 1) (by omega)
    rw [hih]
    dsimp only
    simp only [List.cons.injEq]
    constructor
    · unfold partLenSpec
      rw [PART_SIZE_eq]
      omega
    · trivial

theorem sum_lens : ∀ (N S : Nat), 0 < S → divCeil S PART_SIZE = N →
    ((partsFrom S N 1).map (fun pt => pt.length)).sum = S := by
  intro N
  induction N with
  | zero =>
    intro S h0 hd
    exfalso
    unfold divCeil at hd
    rw [PART_SIZE_eq] at hd
    split_ifs at hd <;> omega
  | succ n ih =>
    intro S h0 hd
    show ((partsFrom S (n + 1) 1).map (fun pt => pt.length)).sum = S
    unfold partsFrom
    rw [List.map_cons, List.sum_cons]
    dsimp only
    have hlen1 : partLenSpec S 1 = min PART_SIZE S := by
      unfold partLenSpec
      norm_num
    by_cases hS : S ≤ PART_SIZE
    · have hn : n = 0 := by
        unfold divCeil at hd
        have hS2 : S ≤ 10485760 := PART_SIZE_eq ▸ hS
        rw [PART_SIZE_eq] at hd
        split_ifs at hd <;> omega
      subst hn
      show partLenSpec S 1 + (([] : List PartUpload).map (fun pt => pt.length)).sum = S
      rw [hlen1, Nat.min_eq_right hS]
      simp
    · push_neg at hS
      have hS2 : 10485760 < S := PART_SIZE_eq ▸ hS
      rw [lens_shift S n 1 (by omega)]
      rw [ih (S - PART_SIZE) (by rw [PART_SIZE_eq]; omega)
        (by unfold divCeil at hd ⊢; rw [PART_SIZE_eq] at hd ⊢; split_ifs at hd ⊢ <;> omega)]
      rw [hlen1, Nat.min_eq_left (le_of_lt hS)]
      rw [PART_SIZE_eq]
      omega

theorem lens_pos_aux (S : Nat) : ∀ (rem n : Nat),
    (∀ i, i < rem → (n + i - 1) * PART_SIZE < S) →
    ∀ l ∈ (partsFrom S rem n).map (fun pt => pt.length), 0 < l := by
  intro rem
  induction rem with
  | zero =>
    intro n h l hl
    simp [partsFrom] at hl
  | succ r ih =>
    intro n h l hl
    unfold partsFrom at hl
    rw [List.map_cons] at hl
    dsimp only at hl
    rcases List.mem_cons.mp hl with hl | hl
    · subst hl
      have h0 := h 0 (by omega)
      unfold partLenSpec
      rw [PART_SIZE_eq] at h0 ⊢
      omega
    · apply ih (n + 1) _ l hl
      intro i hi
      have := h (i + 1) (by omega)
      have heq : n + 1 + i - 1 = n + (i + 1) - 1 := by omega
      rw [heq]
      exact this

theorem chain_sumsFrom : ∀ (ls : List Nat) (up : Nat), (∀ l ∈ ls, 0 < l) →
    List.Chain' (fun a b => a < b) (sumsFrom up ls) := by
  intro ls
  induction ls with
  | nil => intro up h; simp [sumsFrom]
  | cons l ls2 ih =>
    intro up h
    unfold sumsFrom
    rw [List.chain'_cons']
    constructor
    · intro b hb
      cases ls2 with
      | nil => simp [sumsFrom] at hb
      | cons m ms =>
        unfold sumsFrom at hb
        simp at hb
        have hm : 0 < m := h m (by simp)
        omega
    · exact ih (up + l) (fun x hx => h x (List.mem_cons_of_mem _ hx))

theorem last_sumsFrom : ∀ (ls : List Nat) (up : Nat), ls ≠ [] →
    (sumsFrom up ls).getLast? = some (up + ls.sum) := by
  intro ls
  induction ls with
  | nil => intro up h; exact absurd rfl h
  | cons l ls2 ih =>
    intro up h
    cases ls2 with
    | nil => simp [sumsFrom]
    | cons m ms =>
      calc (sumsFrom up (l :: m :: ms)).getLast?
          = (sumsFrom (up + l) (m :: ms)).getLast? := List.getLast?_cons_cons
        _ = some ((up + l) + (m :: ms).sum) := ih (up + l) (by simp)
        _ = some (up + (l :: m :: ms).sum) := by
            rw [List.sum_cons, List.sum_cons, List.sum_cons]
            congr 1
            omega

theorem toI32_small (n : Nat) (h : n < 2 ^ 31) : toI32 n = (n : Int) := by
  unfold toI32
  rw [Nat.mod_eq_of_lt (by omega)]
  rw [if_pos h]

theorem lt_divCeil_mul (S i : Nat) (h0 : 0 < S) (hi : i < divCeil S PART_SIZE) :
    i * PART_SIZE < S := by
  unfold divCeil at hi
  rw [PART_SIZE_eq] at hi ⊢
  split_ifs at hi <;> omega

/-- An uncancelled over-threshold multipart run is the `partsFrom`/`evtsFrom`
unfolding, provided the part count fits in `i32`. -/
theorem perform_upload_run_eq (S : Nat) (tmb : Option Nat)
    (hthr : ¬ S < (tmb.getD 50) * 1024 * 1024)
    (hpos : 0 < S)
    (hsz : divCeil S PART_SIZE < 2 ^ 31) :
    perform_upload S tmb none =
      { multipart := true, total_parts := ((divCeil S PART_SIZE : Nat) : Int),
        parts := partsFrom S (divCeil S PART_SIZE) 1,
        events := evtsFrom S ((divCeil S PART_SIZE : Nat) : Int) (divCeil S PART_SIZE) 1 0,
        cancelled := false } := by
  have hpos2 : 0 < divCeil S PART_SIZE := divCeil_pos S hpos
  have hto : toI32 (divCeil S PART_SIZE) = ((divCeil S PART_SIZE : Nat) : Int) :=
    toI32_small _ hsz
  unfold perform_upload
  rw [if_neg hthr]
  dsimp only
  rw [hto]
  rw [if_neg (by omega : ¬ ((divCeil S PART_SIZE : Nat) : Int) ≤ 0)]
  rw [show ((divCeil S PART_SIZE : Nat) : Int).toNat = divCeil S PART_SIZE from by omega]
  rw [uploadLoop_none]

/-- C3 counterexample.  The claim quantifies over every file of size `S`
greater than or equal to the threshold.  With `multipart_threshold_mb = 0`
a zero-byte file meets the threshold, takes the multipart branch, gets
`ceil(0 / 10MiB) = 0` parts and emits no progress event at all, so no final
event with `uploaded_bytes = S` exists.  And at `S = 2^31 * PART_SIZE` the
`as i32` cast of `div_ceil` wraps to a non-positive value, so the loop
`1..=total_parts` runs zero times and uploads no part, while
`ceil(S / 10MiB) = 2^31`. -/
theorem C3_counterexample :
    ((0 : Nat) ≥ (Option.getD (some 0) 50) * 1024 * 1024 ∧
      (perform_upload 0 (some 0) none).multipart = true ∧
      (perform_upload 0 (some 0) none).events = []) ∧
    ((2 ^ 31 * PART_SIZE : Nat) ≥ (Option.getD (some 0) 50) * 1024 * 1024 ∧
      (perform_upload (2 ^ 31 * PART_SIZE) (some 0) none).parts = [] ∧
      divCeil (2 ^ 31 * PART_SIZE) PART_SIZE = 2 ^ 31) := by
  refine ⟨⟨?_, ?_, ?_⟩, ?_, ?_, ?_⟩ <;> decide

/-- C3 (amended): for a file of positive size `S` meeting the multipart
threshold whose part count `ceil(S / 10MiB)` fits in `i32`, an uncancelled
`perform_upload` run uses exactly `ceil(S / 10MiB)` parts numbered
consecutively `1..N`, part `i+1` has length `min(10MiB, S - i * 10MiB)`,
the part lengths sum to `S`, the `uploaded_bytes` values of the emitted
progress events are strictly increasing with final value `S`, and a 25 MiB
file over a 20 MiB threshold gives parts of 10, 10 and 5 MiB and a final
event with `uploaded_bytes = 26214400`. -/
theorem C3_upload_parts_amended (S : Nat) (tmb : Option Nat)
    (hthr : ¬ S < (tmb.getD 50) * 1024 * 1024)
    (hpos : 0 < S)
    (hsz : divCeil S PART_SIZE < 2 ^ 31) :
    (perform_upload S tmb none).multipart = true ∧
    (perform_upload S tmb none).cancelled = false ∧
    (perform_upload S tmb none).parts.length = divCeil S PART_SIZE ∧
    (perform_upload S tmb none).parts.map (fun pt => pt.part_number) =
      (List.range (divCeil S PART_SIZE)).map (fun i => ((i + 1 : Nat) : Int)) ∧
    (perform_upload S tmb none).parts.map (fun pt => pt.length) =
      (List.range (divCeil S PART_SIZE)).map (fun i => min PART_SIZE (S - i * PART_SIZE)) ∧
    ((perform_upload S tmb none).parts.map (fun pt => pt.length)).sum = S ∧
    List.Chain' (fun a b => a < b)
      ((perform_upload S tmb none).events.map (fun e => e.uploaded_bytes)) ∧
    ((perform_upload S tmb none).events.map (fun e => e.uploaded_bytes)).getLast? = some S ∧
    ((perform_upload (25 * 1024 * 1024) (some 20) none).parts.map (fun pt => pt.length) =
        [10485760, 10485760, 5242880] ∧
      ((perform_upload (25 * 1024 * 1024) (some 20) none).events.map
        (fun e => e.uploaded_bytes)).getLast? = some 26214400) := by
  have hpos2 : 0 < divCeil S PART_SIZE := divCeil_pos S hpos
  rw [perform_upload_run_eq S tmb hthr hpos hsz]
  dsimp only
  have hlens : (partsFrom S (divCeil S PART_SIZE) 1).map (fun pt => pt.length) =
      (List.range (divCeil S PART_SIZE)).map (fun i => min PART_SIZE (S - i * PART_SIZE)) := by
    rw [partsFrom_map_len]
    apply List.map_congr_left
    intro i hi
    unfold partLenSpec
    rw [PART_SIZE_eq]
    omega
  have hlenspos : ∀ l ∈ (partsFrom S (divCeil S PART_SIZE) 1).map (fun pt => pt.length), 0 < l := by
    apply lens_pos_aux
    intro i hi
    have := lt_divCeil_mul S i hpos hi
    have heq : 1 + i - 1 = i := by omega
    rw [heq]
    exact this
  have hsum : ((partsFrom S (divCeil S PART_SIZE) 1).map (fun pt => pt.length)).sum = S :=
    sum_lens (divCeil S PART_SIZE) S hpos rfl
  have hne : (partsFrom S (divCeil S PART_SIZE) 1).map (fun pt => pt.length) ≠ [] := by
    intro hnil
    have := congrArg List.length hnil
    rw [List.length_map, partsFrom_length] at this
    simp at this
    omega
  refine ⟨rfl, rfl, ?_, ?_, hlens, hsum, ?_, ?_, by decide, by decide⟩
  · rw [partsFrom_length]
  · rw [partsFrom_map_pn]
    apply List.map_congr_left
    intro i hi
    congr 1
    omega
  · rw [evtsFrom_map_bytes]
    exact chain_sumsFrom _ 0 hlenspos
  · rw [evtsFrom_map_bytes, last_sumsFrom _ 0 hne, hsum]
    rw [Nat.zero_add]

/-- Witness for C3: the 25 MiB file over a 20 MiB threshold satisfies the
hypotheses, uses the multipart path and its part lengths sum to the file
size. -/
theorem C3_upload_parts_amended_witness :
    (¬ (25 * 1024 * 1024 : Nat) < ((some 20 : Option Nat).getD 50) * 1024 * 1024) ∧
    (0 : Nat) < 25 * 1024 * 1024 ∧
    divCeil (25 * 1024 * 1024) PART_SIZE < 2 ^ 31 ∧
    (perform_upload (25 * 1024 * 1024) (some 20) none).multipart = true ∧
    ((perform_upload (25 * 1024 * 1024) (some 20) none).parts.map
      (fun pt => pt.length)).sum = 25 * 1024 * 1024 :=
  ⟨by decide, by decide, by decide,
    (C3_upload_parts_amended (25 * 1024 * 1024) (some 20) (by decide) (by decide) (by decide)).1,
    (C3_upload_parts_amended (25 * 1024 * 1024) (some 20)
      (by decide) (by decide) (by decide)).2.2.2.2.2.1⟩

/-! ### C5 and C9: credential encryption (`crypto.rs` `Crypto::encrypt` / `Crypto::decrypt`)

`encrypt` returns `Ok(String::new())` on the empty plaintext; otherwise it
draws a random 12-byte nonce, AES-256-GCM-encrypts the UTF-8 bytes of the
plaintext and returns `base64(nonce || ciphertext || tag)`.  `decrypt`
returns `Ok(String::new())` on the empty input; otherwise it base64-decodes,
rejects decodings of at most `NONCE_SIZE = 12` bytes with
`CryptoError("Ciphertext too short ...")`, splits nonce from ciphertext,
decrypts and validates UTF-8.

A Rust `String` is represented by its UTF-8 byte sequence (a `List Nat` of
bytes accepted by `utf8Valid`).  The base64 `STANDARD` engine is embedded
concretely (RFC 4648 with padding, canonical trailing bits).  The AES-GCM
cipher and the thread-local RNG live outside the repository: the cipher is
any `Aead` structure whose decrypt inverts encrypt, whose ciphertext is
plaintext plus the 16-byte tag, and which produces bytes; the nonce drawn by
`rand::thread_rng` is a 12-byte parameter.  The four distinct
`AppError::CryptoError(..)` messages of `decrypt` become the four
constructors of `CryptoErr`. -/

def b64Alphabet : List Char :=
  "ABCDEFGHIJKLMNOPQRSTUVWXYZabcdefghijklmnopqrstuvwxyz0123456789+/".toList

def b64Char (n : Nat) : Char := b64Alphabet.getD n 'A'

def b64Index (c : Char) : Option Nat := b64Alphabet.findIdx? (fun d => d = c)

def base64Encode : List Nat → List Char
  | [] => []
  | [b0] => [b64Char (b0 / 4), b64Char (b0 % 4 * 16), '=', '=']
  | [b0, b1] => [b64Char (b0 / 4), b64Char (b0 % 4 * 16 + b1 / 16), b64Char (b1 % 16 * 4), '=']
  | b0 :: b1 :: b2 :: rest =>
    b64Char (b0 / 4) :: b64Char (b0 % 4 * 16 + b1 / 16) ::
      b64Char (b1 % 16 * 4 + b2 / 64) :: b64Char (b2 % 64) :: base64Encode rest

def base64Decode : List Char → Option (List Nat)
  | [] => some []
  | c0 :: c1 :: c2 :: c3 :: rest =>
    match b64Index c0, b64Index c1 with
    | some n0, some n1 =>
      if c2 = '=' then
        if c3 = '=' ∧ rest = [] ∧ n1 % 16 = 0 then
          some [n0 * 4 + n1 / 16]
        else none
      else
        match b64Index c2 with
        | some n2 =>
          if c3 = '=' then
            if rest = [] ∧ n2 % 4 = 0 then
              some [n0 * 4 + n1 / 16, n1 % 16 * 16 + n2 / 4]
            else none
          else
            match b64Index c3 with
            | some n3 =>
              (base64Decode rest).map
                (fun bs =>
                  (n0 * 4 + n1 / 16) :: (n1 % 16 * 16 + n2 / 4) :: (n2 % 4 * 64 + n3) :: bs)
            | none => none
        | none => none
    | _, _ => none
  | _ => none

theorem b64Index_b64Char_fin : ∀ n : Fin 64, b64Index (b64Char n.val) = some n.val := by decide

theorem b64Char_ne_pad_fin : ∀ n : Fin 64, b64Char n.val ≠ '=' := by decide

theorem b64Index_b64Char (n : Nat) (h : n < 64) : b64Index (b64Char n) = some n :=
  b64Index_b64Char_fin ⟨n, h⟩

theorem b64Char_ne_pad (n : Nat) (h : n < 64) : b64Char n ≠ '=' :=
  b64Char_ne_pad_fin ⟨n, h⟩

theorem base64_roundtrip : ∀ bs : List Nat, (∀ b ∈ bs, b < 256) →
    base64Decode (base64Encode bs) = some bs := by
  have key : ∀ N : Nat, ∀ bs : List Nat, bs.length = N → (∀ b ∈ bs, b < 256) →
      base64Decode (base64Encode bs) = some bs := by
    intro N
    induction N using Nat.strong_induction_on with
    | _ N ih =>
      intro bs hlen hb
      match bs with
      | [] => rfl
      | [b0] =>
        have h0 : b0 < 256 := hb b0 (by simp)
        show base64Decode [b64Char (b0 / 4), b64Char (b0 % 4 * 16), '=', '='] = some [b0]
        unfold base64Decode
        rw [b64Index_b64Char (b0 / 4) (by omega), b64Index_b64Char (b0 % 4 * 16) (by omega)]
        dsimp only
        rw [if_pos rfl, if_pos ⟨rfl, rfl, by omega⟩]
        congr 1
        congr 1
        omega
      | [b0, b1] =>
        have h0 : b0 < 256 := hb b0 (by simp)
        have h1 : b1 < 256 := hb b1 (by simp)
        show base64Decode
            [b64Char (b0 / 4), b64Char (b0 % 4 * 16 + b1 / 16), b64Char (b1 % 16 * 4), '='] =
          some [b0, b1]
        unfold base64Decode
        rw [b64Index_b64Char (b0 / 4) (by omega),
          b64Index_b64Char (b0 % 4 * 16 + b1 / 16) (by omega)]
        dsimp only
        rw [if_neg (b64Char_ne_pad (b1 % 16 * 4) (by omega))]
        rw [b64Index_b64Char (b1 % 16 * 4) (by omega)]
        dsimp only
        rw [if_pos rfl, if_pos ⟨rfl, by omega⟩]
        congr 1
        congr 1
        · omega
        · congr 1
          omega
      | b0 :: b1 :: b2 :: rest =>
        have h0 : b0 < 256 := hb b0 (by simp)
        have h1 : b1 < 256 := hb b1 (by simp)
        have h2 : b2 < 256 := hb b2 (by simp)
        have hlt : rest.length < N := by
          simp only [List.length_cons] at hlen
          omega
        have hrest : base64Decode (base64Encode rest) = some rest := by
          exact ih rest.length hlt rest rfl (fun b hbm => hb b (by simp [hbm]))
        show base64Decode
            (b64Char (b0 / 4) :: b64Char (b0 % 4 * 16 + b1 / 16) ::
              b64Char (b1 % 16 * 4 + b2 / 64) :: b64Char (b2 % 64) :: base64Encode rest) =
          some (b0 :: b1 :: b2 :: rest)
        unfold base64Decode
        rw [b64Index_b64Char (b0 / 4) (by omega),
          b64Index_b64Char (b0 % 4 * 16 + b1 / 16) (by omega)]
        dsimp only
        rw [if_neg (b64Char_ne_pad (b1 % 16 * 4 + b2 / 64) (by omega))]
        rw [b64Index_b64Char (b1 % 16 * 4 + b2 / 64) (by omega)]
        dsimp only
        rw [if_neg (b64Char_ne_pad (b2 % 64) (by omega))]
        rw [b64Index_b64Char (b2 % 64) (by omega)]
        dsimp only
        rw [hrest]
        show some (_ :: _ :: _ :: rest) = some (b0 :: b1 :: b2 :: rest)
        congr 1
        congr 1
        · omega
        congr 1
        · omega
        congr 1
        omega
  intro bs
  exact key bs.length bs rfl

theorem base64Encode_inj (as bs : List Nat) (ha : ∀ b ∈ as, b < 256)
    (hbb : ∀ b ∈ bs, b < 256) (h : base64Encode as = base64Encode bs) : as = bs := by
  have h1 := base64_roundtrip as ha
  have h2 := base64_roundtrip bs hbb
  rw [h, h2] at h1
  exact (Option.some.injEq _ _ ▸ h1).symm

theorem base64Encode_ne_nil (bs : List Nat) (h : bs ≠ []) : base64Encode bs ≠ [] := by
  match bs with
  | [] => exact absurd rfl h
  | [b0] => simp [base64Encode]
  | [b0, b1] => simp [base64Encode]
  | b0 :: b1 :: b2 :: rest => simp [base64Encode]

def utf8Cont (b : Nat) : Bool := decide (0x80 ≤ b) && decide (b ≤ 0xBF)

def utf8Valid : List Nat → Bool
  | [] => true
  | b :: rest =>
    if b ≤ 0x7F then utf8Valid rest
    else if 0xC2 ≤ b ∧ b ≤ 0xDF then
      match rest with
      | b1 :: rest2 => utf8Cont b1 && utf8Valid rest2
      | [] => false
    else if b = 0xE0 then
      match rest with
      | b1 :: b2 :: rest2 =>
        decide (0xA0 ≤ b1) && decide (b1 ≤ 0xBF) && utf8Cont b2 && utf8Valid rest2
      | _ => false
    else if b = 0xED then
      match rest with
      | b1 :: b2 :: rest2 =>
        decide (0x80 ≤ b1) && decide (b1 ≤ 0x9F) && utf8Cont b2 && utf8Valid rest2
      | _ => false
    else if 0xE1 ≤ b ∧ b ≤ 0xEF then
      match rest with
      | b1 :: b2 :: rest2 => utf8Cont b1 && utf8Cont b2 && utf8Valid rest2
      | _ => false
    else if b = 0xF0 then
      match rest with
      | b1 :: b2 :: b3 :: rest2 =>
        decide (0x90 ≤ b1) && decide (b1 ≤ 0xBF) && utf8Cont b2 && utf8Cont b3 && utf8Valid rest2
      | _ => false
    else if 0xF1 ≤ b ∧ b ≤ 0xF3 then
      match rest with
      | b1 :: b2 :: b3 :: rest2 =>
        utf8Cont b1 && utf8Cont b2 && utf8Cont b3 && utf8Valid rest2
      | _ => false
    else if b = 0xF4 then
      match rest with
      | b1 :: b2 :: b3 :: rest2 =>
        decide (0x80 ≤ b1) && decide (b1 ≤ 0x8F) && utf8Cont b2 && utf8Cont b3 && utf8Valid rest2
      | _ => false
    else false

inductive CryptoErr where
  | badBase64
  | tooShort
  | decryptFailed
  | badUtf8
deriving DecidableEq

structure Aead where
  enc : List Nat → List Nat → List Nat
  dec : List Nat → List Nat → Option (List Nat)
  dec_enc : ∀ nonce pt, dec nonce (enc nonce pt) = some pt
  enc_len : ∀ nonce pt, (enc nonce pt).length = pt.length + 16
  enc_bytes : ∀ nonce pt, (∀ b ∈ pt, b < 256) → ∀ b ∈ enc nonce pt, b < 256

def NONCE_SIZE : Nat := 12

def Crypto.encrypt (A : Aead) (nonce : List Nat) (pt : List Nat) : List Char :=
  if pt = [] then [] else base64Encode (nonce ++ A.enc nonce pt)

def Crypto.decrypt (A : Aead) (s : List Char) : Except CryptoErr (List Nat) :=
  if s = [] then Except.ok []
  else
    match base64Decode s with
    | none => Except.error CryptoErr.badBase64
    | some combined =>
      if combined.length ≤ NONCE_SIZE then Except.error CryptoErr.tooShort
      else
        match A.dec (combined.take NONCE_SIZE) (combined.drop NONCE_SIZE) with
        | none => Except.error CryptoErr.decryptFailed
        | some ptb => if utf8Valid ptb then Except.ok ptb else Except.error CryptoErr.badUtf8

def padAead : Aead where
  enc _ pt := pt ++ List.replicate 16 0
  dec _ ct := if 16 ≤ ct.length then some (ct.take (ct.length - 16)) else none
  dec_enc := by
    intro nonce pt
    dsimp only
    rw [if_pos (by simp)]
    simp
  enc_len := by
    intro nonce pt
    dsimp only
    simp
  enc_bytes := by
    intro nonce pt h b hb
    rcases List.mem_append.mp hb with hb | hb
    · exact h b hb
    · have := List.eq_of_mem_replicate hb
      omega

theorem decrypt_encrypt (A : Aead) (nonce pt : List Nat)
    (h1 : nonce.length = NONCE_SIZE) (hb1 : ∀ b ∈ nonce, b < 256)
    (hpt : ∀ b ∈ pt, b < 256) (hv : utf8Valid pt = true) :
    Crypto.decrypt A (Crypto.encrypt A nonce pt) = Except.ok pt := by
  by_cases hpe : pt = []
  · subst hpe
    simp [Crypto.encrypt, Crypto.decrypt]
  · have hcb : ∀ b ∈ nonce ++ A.enc nonce pt, b < 256 := by
      intro b hbm
      rcases List.mem_append.mp hbm with hbm | hbm
      · exact hb1 b hbm
      · exact A.enc_bytes nonce pt hpt b hbm
    have hencne : A.enc nonce pt ≠ [] := by
      intro hx
      have hl := A.enc_len nonce pt
      rw [hx] at hl
      simp at hl
    have hne : Crypto.encrypt A nonce pt ≠ [] := by
      unfold Crypto.encrypt
      rw [if_neg hpe]
      apply base64Encode_ne_nil
      intro hx
      rcases List.append_eq_nil.mp hx with ⟨h3, h4⟩
      exact hencne h4
    unfold Crypto.decrypt
    rw [if_neg hne]
    unfold Crypto.encrypt
    rw [if_neg hpe]
    rw [base64_roundtrip _ hcb]
    dsimp only
    have hlen2 : (nonce ++ A.enc nonce pt).length = NONCE_SIZE + pt.length + 16 := by
      rw [List.length_append, A.enc_len, h1]
      omega
    rw [if_neg (by rw [hlen2]; unfold NONCE_SIZE; omega)]
    rw [show (nonce ++ A.enc nonce pt).take NONCE_SIZE = nonce from by
      rw [← h1]; exact List.take_left nonce _]
    rw [show (nonce ++ A.enc nonce pt).drop NONCE_SIZE = A.enc nonce pt from by
      rw [← h1]; exact List.drop_left nonce _]
    rw [A.dec_enc]
    dsimp only
    rw [if_pos hv]

/-- C5: credential encryption round-trip.  For every plaintext (given by its
UTF-8 bytes) and every pair of 12-byte nonces, `decrypt (encrypt p)` returns
exactly `p` for both encryptions, and when the plaintext is non-empty and
the two independently drawn nonces differ, the two ciphertexts differ. -/
theorem C5_crypto_roundtrip (A : Aead) (nonce1 nonce2 pt : List Nat)
    (h1 : nonce1.length = NONCE_SIZE) (h2 : nonce2.length = NONCE_SIZE)
    (hb1 : ∀ b ∈ nonce1, b < 256) (hb2 : ∀ b ∈ nonce2, b < 256)
    (hpt : ∀ b ∈ pt, b < 256) (hv : utf8Valid pt = true) :
    Crypto.decrypt A (Crypto.encrypt A nonce1 pt) = Except.ok pt ∧
    Crypto.decrypt A (Crypto.encrypt A nonce2 pt) = Except.ok pt ∧
    (pt ≠ [] → nonce1 ≠ nonce2 →
      Crypto.encrypt A nonce1 pt ≠ Crypto.encrypt A nonce2 pt) := by
  refine ⟨decrypt_encrypt A nonce1 pt h1 hb1 hpt hv,
    decrypt_encrypt A nonce2 pt h2 hb2 hpt hv, ?_⟩
  intro hpe hnn heq
  unfold Crypto.encrypt at heq
  rw [if_neg hpe, if_neg hpe] at heq
  have hcb1 : ∀ b ∈ nonce1 ++ A.enc nonce1 pt, b < 256 := by
    intro b hbm
    rcases List.mem_append.mp hbm with hbm | hbm
    · exact hb1 b hbm
    · exact A.enc_bytes nonce1 pt hpt b hbm
  have hcb2 : ∀ b ∈ nonce2 ++ A.enc nonce2 pt, b < 256 := by
    intro b hbm
    rcases List.mem_append.mp hbm with hbm | hbm
    · exact hb2 b hbm
    · exact A.enc_bytes nonce2 pt hpt b hbm
  have hcomb := base64Encode_inj _ _ hcb1 hcb2 heq
  have hlen : nonce1.length = nonce2.length := by rw [h1, h2]
  exact hnn (List.append_inj_left hcomb hlen)

theorem C5_crypto_roundtrip_witness :
    (List.replicate 12 0 : List Nat).length = NONCE_SIZE ∧
    utf8Valid [65, 75, 73, 65] = true ∧
    Crypto.decrypt padAead (Crypto.encrypt padAead (List.replicate 12 0) [65, 75, 73, 65]) =
      Except.ok [65, 75, 73, 65] ∧
    Crypto.encrypt padAead (List.replicate 12 0) [65, 75, 73, 65] ≠
      Crypto.encrypt padAead (List.replicate 11 0 ++ [1]) [65, 75, 73, 65] :=
  ⟨by decide, by decide,
    (C5_crypto_roundtrip padAead (List.replicate 12 0) (List.replicate 11 0 ++ [1])
      [65, 75, 73, 65] (by decide) (by decide) (by decide) (by decide) (by decide)
      (by decide)).1,
    (C5_crypto_roundtrip padAead (List.replicate 12 0) (List.replicate 11 0 ++ [1])
      [65, 75, 73, 65] (by decide) (by decide) (by decide) (by decide) (by decide)
      (by decide)).2.2 (by decide) (by decide)⟩

/-- C9: empty-credential passthrough and minimum ciphertext length.
`encrypt ""` returns the empty string with no nonce or ciphertext produced,
`decrypt ""` returns the empty string without error, and `decrypt` returns a
`CryptoError` for every non-empty input whose base64 decoding is 12 bytes or
fewer. -/
theorem C9_empty_passthrough (A : Aead) (nonce : List Nat) (s : List Char) (bs : List Nat)
    (hs : s ≠ []) (hdec : base64Decode s = some bs) (hlen : bs.length ≤ 12) :
    Crypto.encrypt A nonce [] = [] ∧
    Crypto.decrypt A [] = Except.ok [] ∧
    Crypto.decrypt A s = Except.error CryptoErr.tooShort := by
  refine ⟨by simp [Crypto.encrypt], by simp [Crypto.decrypt], ?_⟩
  unfold Crypto.decrypt
  rw [if_neg hs, hdec]
  dsimp only
  rw [if_pos (by unfold NONCE_SIZE; omega)]

theorem C9_empty_passthrough_witness :
    (['Y', 'W', 'J', 'j'] : List Char) ≠ [] ∧
    base64Decode ['Y', 'W', 'J', 'j'] = some [97, 98, 99] ∧
    Crypto.decrypt padAead ['Y', 'W', 'J', 'j'] = Except.error CryptoErr.tooShort :=
  ⟨by decide, by decide,
    (C9_empty_passthrough padAead [] ['Y', 'W', 'J', 'j'] [97, 98, 99]
      (by decide) (by decide) (by decide)).2.2⟩


/-! ### C4: cancelled initial indexing (`index_manager.rs` `initial_index_bucket`, lines 55-284)

The listing loop repeatedly checks the cancel channel, honours
`max_initial_requests`, issues one no-delimiter `list_objects` request,
upserts the translated batch, and stops on `!is_truncated` (complete), a
missing continuation token, cancellation or the request cap.  A complete
run materializes complete prefix-status rows from a `GROUP BY` over the
indexed objects; an incomplete run makes one delimiter request at the root
and inserts missing first-level folder statuses.  Both paths then upsert
the root status and the bucket info and return `Ok(InitialIndexResult)`.

External inputs are made explicit: the S3 adapter is the list `pages` of
responses the no-delimiter requests would return in order (a run that would
need a further request, or the delimiter request, with no response modelled
returns `none`, standing for the `Err` path of a failed S3 call), the
cancel channel is `cancelAt = some k`, observed at the first loop check
once `k` requests were made, and the clock is `now`. -/

/-- An object of a listing response (`models.rs` `S3Object`), restricted to
the fields `initial_index_bucket` reads. -/
structure SObj where
  key : Str
  size : Int
deriving DecidableEq

/-- A `ListObjectsResponse` (`models.rs`), restricted to the fields read. -/
structure Page where
  objects : List SObj
  common_prefixes : List Str
  continuation_token : Option Str
  is_truncated : Bool
deriving DecidableEq

/-- `IndexingConfig`.  Modelled from the spec: `max_initial_requests` (0
means unlimited) and `batch_size`; only the former steers the loop. -/
structure IndexingConfig where
  max_initial_requests : Nat
  batch_size : Nat
deriving DecidableEq

/-- `InitialIndexResult` (spec: the seven result fields returned by
`initial_index_bucket`). -/
structure InitialIndexResult where
  total_indexed : Nat
  is_complete : Bool
  requests_made : Nat
  continuation_token : Option Str
  last_key : Option Str
  total_size : Int
  error : Option Str
deriving DecidableEq

/-- `IndexedObject::from_s3_object`.  Modelled from the spec: derived
columns are `parent_prefix` (longest key prefix ending in `'/'`, else
empty), `basename` (the rest), `depth` (number of `'/'` in the parent),
`is_folder` (key ends with `'/'`), `indexed_at` (current wall clock). -/
def from_s3_object (o : SObj) (b : Str) (now : Int) : ObjRow :=
  let par := dropAfterLastSlash o.key
  { bucket := b, key := o.key, version_id := none, size := o.size,
    parent_pfx := par, basename := o.key.drop par.length,
    depth := ((par.filter (fun c => c = '/')).length : Int),
    is_folder := decide (o.key.getLast? = some '/'), indexed_at := now }

/-- The loop counters of `initial_index_bucket`, plus the store. -/
structure LoopSt where
  store : Store
  total_indexed : Nat
  total_size : Int
  requests_made : Nat
  continuation_token : Option Str
  last_key : Option Str
deriving DecidableEq

/-- `rx.try_recv().is_ok()` at a loop check after `reqs` requests. -/
def cancelObserved (cancelAt : Option Nat) (reqs : Nat) : Bool :=
  match cancelAt with
  | none => false
  | some k => decide (k ≤ reqs)

/-- The body of one loop iteration after the break checks
(index_manager.rs:126-160): one listing request, batch conversion and
upsert, counter updates. -/
def consumePage (b : Str) (now : Int) (pg : Page) (ls : LoopSt) : LoopSt :=
  let objs := pg.objects.map (fun o => from_s3_object o b now)
  let ls1 : LoopSt := { ls with requests_made := ls.requests_made + 1 }
  if objs = [] then ls1
  else
    let pr := upsert_objects_batch ls1.store objs
    { ls1 with
      store := pr.1,
      total_indexed := ls1.total_indexed + pr.2,
      total_size := ls1.total_size + (objs.map (fun r => r.size)).sum,
      last_key := (objs.getLast?).map (fun r => r.key) }

/-- The listing loop of `initial_index_bucket` (index_manager.rs:110-174).
Returns the final counters, `is_complete`, and `was_cancelled`. -/
def indexLoop (b : Str) (maxReq : Nat) (cancelAt : Option Nat) (now : Int) :
    List Page → LoopSt → Option (LoopSt × Bool × Bool)
  | pages, ls =>
    if cancelObserved cancelAt ls.requests_made then some (ls, false, true)
    else if 0 < maxReq ∧ maxReq ≤ ls.requests_made then some (ls, false, false)
    else
      match pages with
      | [] => none
      | pg :: rest =>
        let ls2 := consumePage b now pg ls
        if pg.is_truncated = false then some (ls2, true, false)
        else
          let ls3 : LoopSt := { ls2 with continuation_token := pg.continuation_token }
          match pg.continuation_token with
          | none => some (ls3, false, false)
          | some _ => indexLoop b maxReq cancelAt now rest ls3

def cancelMsg : Str := "Cancelled by user".toList

/-- The folder status inserted for a discovered first-level folder
(index_manager.rs:233-245). -/
def folderRow (b fp : Str) : PrefixRow :=
  { bucket := b, pfx := fp, is_complete := false, objects_count := 0, total_size := 0,
    continuation_token := none, last_indexed_key := none,
    last_sync_started_at := none, last_sync_completed_at := none }

/-- The complete prefix status built from one `GROUP BY` row
(index_manager.rs:192-204). -/
def statusOfStat (b : Str) (now : Int) (s : Str × Int × Int) : PrefixRow :=
  { bucket := b, pfx := s.1, is_complete := true, objects_count := s.2.1,
    total_size := s.2.2, continuation_token := none, last_indexed_key := none,
    last_sync_started_at := some now, last_sync_completed_at := some now }

/-- `IndexManager::initial_index_bucket` (index_manager.rs:55-284).  The
`bucket_info` row is fetched up front (or defaulted); its `bucket_name` is
`b` in either case and every other modelled column of it is overwritten
before the final upsert, so the written row is built directly. -/
def initial_index_bucket (st : Store) (b : Str) (cfg : IndexingConfig)
    (cancelAt : Option Nat) (now : Int) (pages : List Page) (rootPage : Option Page) :
    Option (InitialIndexResult × Store) :=
  match indexLoop b cfg.max_initial_requests cancelAt now pages ⟨st, 0, 0, 0, none, none⟩ with
  | none => none
  | some (ls, is_complete, was_cancelled) =>
    let afterBranch : Option (Store × Nat) :=
      if is_complete then
        let statuses := ((calculate_all_prefix_stats_batch ls.store b).filter
          (fun s => decide (s.1 ≠ []))).map (statusOfStat b now)
        some (batch_upsert_prefix_status ls.store statuses, ls.requests_made)
      else
        match rootPage with
        | none => none
        | some rp =>
          let step := fun (s : Store) (fp : Str) =>
            if (getStatus s b fp).isNone then upsert_prefix_status s (folderRow b fp) now else s
          some (rp.common_prefixes.foldl step ls.store, ls.requests_made + 1)
    match afterBranch with
    | none => none
    | some (st2, reqs) =>
      let root : PrefixRow :=
        { bucket := b, pfx := [], is_complete := is_complete,
          objects_count := (ls.total_indexed : Int), total_size := ls.total_size,
          continuation_token := ls.continuation_token, last_indexed_key := ls.last_key,
          last_sync_started_at := some now,
          last_sync_completed_at := if is_complete then some now else none }
      let st3 := upsert_prefix_status st2 root now
      let birow : BucketInfoRow :=
        { bucket := b, initial_index_requests := (reqs : Int),
          initial_index_completed := is_complete, last_checked_at := some now }
      let st4 := upsert_bucket_info st3 birow
      some ({ total_indexed := ls.total_indexed, is_complete := is_complete,
              requests_made := reqs, continuation_token := ls.continuation_token,
              last_key := ls.last_key, total_size := ls.total_size,
              error := if was_cancelled then some cancelMsg else none }, st4)

/-- A row with the given uniqueness triple is in the store. -/
def objKeyIn (st : Store) (bu k : Str) (v : Option Str) : Prop :=
  ∃ r ∈ st.objects, r.bucket = bu ∧ r.key = k ∧ r.version_id = v

instance (st : Store) (bu k : Str) (v : Option Str) : Decidable (objKeyIn st bu k v) := by
  unfold objKeyIn
  infer_instance

theorem objKeyIn_replaceObj (st : Store) (row : ObjRow) (bu k : Str) (v : Option Str)
    (h : objKeyIn st bu k v) : objKeyIn (replaceObj st row) bu k v := by
  obtain ⟨r, hr, h1, h2, h3⟩ := h
  by_cases hk : r.bucket = row.bucket ∧ r.key = row.key ∧ r.version_id = row.version_id
  · refine ⟨row, by simp [replaceObj], ?_, ?_, ?_⟩
    · rw [← hk.1, h1]
    · rw [← hk.2.1, h2]
    · rw [← hk.2.2, h3]
  · refine ⟨r, ?_, h1, h2, h3⟩
    unfold replaceObj
    simp only [List.mem_append]
    left
    rw [List.mem_filter]
    refine ⟨hr, ?_⟩
    simpa only [decide_eq_true_eq] using hk

theorem objKeyIn_replaceObj_self (st : Store) (row : ObjRow) :
    objKeyIn (replaceObj st row) row.bucket row.key row.version_id :=
  ⟨row, by simp [replaceObj], rfl, rfl, rfl⟩

theorem objKeyIn_foldl (rows : List ObjRow) : ∀ (st : Store) (bu k : Str) (v : Option Str),
    objKeyIn st bu k v → objKeyIn (rows.foldl replaceObj st) bu k v := by
  induction rows with
  | nil => intro st bu k v h; exact h
  | cons r rs ih =>
    intro st bu k v h
    rw [List.foldl_cons]
    exact ih _ bu k v (objKeyIn_replaceObj st r bu k v h)

theorem objKeyIn_foldl_mem (rows : List ObjRow) : ∀ (st : Store) (r : ObjRow), r ∈ rows →
    objKeyIn (rows.foldl replaceObj st) r.bucket r.key r.version_id := by
  induction rows with
  | nil => intro st r h; cases h
  | cons a rs ih =>
    intro st r h
    rw [List.foldl_cons]
    rcases List.mem_cons.mp h with h | h
    · subst h
      exact objKeyIn_foldl rs _ _ _ _ (objKeyIn_replaceObj_self st r)
    · exact ih _ r h

theorem objKeyIn_upsert_batch (st : Store) (objs : List ObjRow) (bu k : Str) (v : Option Str)
    (h : objKeyIn st bu k v) : objKeyIn (upsert_objects_batch st objs).1 bu k v := by
  unfold upsert_objects_batch
  split
  · exact h
  · exact objKeyIn_foldl objs st bu k v h

theorem objKeyIn_upsert_batch_mem (st : Store) (objs : List ObjRow) (r : ObjRow)
    (hm : r ∈ objs) : objKeyIn (upsert_objects_batch st objs).1 r.bucket r.key r.version_id := by
  unfold upsert_objects_batch
  split
  · subst_vars
    cases hm
  · exact objKeyIn_foldl_mem objs st r hm

theorem insertIgnoreStatus_objects (st : Store) (row : PrefixRow) :
    (insertIgnoreStatus st row).objects = st.objects := by
  unfold insertIgnoreStatus
  split <;> rfl

theorem insertIgnoreStatus_buckets (st : Store) (row : PrefixRow) :
    (insertIgnoreStatus st row).buckets = st.buckets := by
  unfold insertIgnoreStatus
  split <;> rfl

theorem replaceStatus_objects (st : Store) (row : PrefixRow) :
    (replaceStatus st row).objects = st.objects := by
  unfold replaceStatus
  split <;> rfl

theorem replaceStatus_buckets (st : Store) (row : PrefixRow) :
    (replaceStatus st row).buckets = st.buckets := by
  unfold replaceStatus
  split <;> rfl

theorem ensure_objects (b : Str) (now : Int) : ∀ (l : List Str) (st : Store),
    ((l.foldl (fun s q => insertIgnoreStatus s (defaultParentRow b q now)) st)).objects =
      st.objects := by
  intro l
  induction l with
  | nil => intro st; rfl
  | cons q qs ih =>
    intro st
    rw [List.foldl_cons, ih, insertIgnoreStatus_objects]

theorem ensure_buckets (b : Str) (now : Int) : ∀ (l : List Str) (st : Store),
    ((l.foldl (fun s q => insertIgnoreStatus s (defaultParentRow b q now)) st)).buckets =
      st.buckets := by
  intro l
  induction l with
  | nil => intro st; rfl
  | cons q qs ih =>
    intro st
    rw [List.foldl_cons, ih, insertIgnoreStatus_buckets]

theorem upsert_prefix_status_objects (st : Store) (row : PrefixRow) (now : Int) :
    (upsert_prefix_status st row now).objects = st.objects := by
  unfold upsert_prefix_status ensure_parent_prefixes_exist
  rw [replaceStatus_objects, insertIgnoreStatus_objects, ensure_objects row.bucket now]

theorem upsert_prefix_status_buckets (st : Store) (row : PrefixRow) (now : Int) :
    (upsert_prefix_status st row now).buckets = st.buckets := by
  unfold upsert_prefix_status ensure_parent_prefixes_exist
  rw [replaceStatus_buckets, insertIgnoreStatus_buckets, ensure_buckets row.bucket now]

theorem batch_upsert_objects (rows : List PrefixRow) : ∀ (st : Store),
    (batch_upsert_prefix_status st rows).objects = st.objects := by
  unfold batch_upsert_prefix_status
  induction rows with
  | nil => intro st; rfl
  | cons r rs ih =>
    intro st
    rw [List.foldl_cons, ih, replaceStatus_objects]

theorem batch_upsert_buckets (rows : List PrefixRow) : ∀ (st : Store),
    (batch_upsert_prefix_status st rows).buckets = st.buckets := by
  unfold batch_upsert_prefix_status
  induction rows with
  | nil => intro st; rfl
  | cons r rs ih =>
    intro st
    rw [List.foldl_cons, ih, replaceStatus_buckets]

theorem folderFold_objects (b : Str) (now : Int) : ∀ (l : List Str) (st : Store),
    (l.foldl
      (fun s fp =>
        if (getStatus s b fp).isNone then upsert_prefix_status s (folderRow b fp) now else s)
      st).objects = st.objects := by
  intro l
  induction l with
  | nil => intro st; rfl
  | cons fp fps ih =>
    intro st
    rw [List.foldl_cons, ih]
    split
    · rw [upsert_prefix_status_objects]
    · rfl

theorem folderFold_buckets (b : Str) (now : Int) : ∀ (l : List Str) (st : Store),
    (l.foldl
      (fun s fp =>
        if (getStatus s b fp).isNone then upsert_prefix_status s (folderRow b fp) now else s)
      st).buckets = st.buckets := by
  intro l
  induction l with
  | nil => intro st; rfl
  | cons fp fps ih =>
    intro st
    rw [List.foldl_cons, ih]
    split
    · rw [upsert_prefix_status_buckets]
    · rfl

theorem find_map_replace (row : BucketInfoRow) : ∀ l : List BucketInfoRow,
    (∃ x ∈ l, x.bucket = row.bucket) →
    (l.map (fun r => if r.bucket = row.bucket then row else r)).find?
      (fun r => decide (r.bucket = row.bucket)) = some row := by
  intro l
  induction l with
  | nil =>
    intro h
    obtain ⟨x, hx, _⟩ := h
    cases hx
  | cons r rs ih =>
    intro h
    rw [List.map_cons]
    by_cases hr : r.bucket = row.bucket
    · rw [if_pos hr]
      simp [List.find?]
    · rw [if_neg hr]
      have hd : (decide (r.bucket = row.bucket)) = false := decide_eq_false hr
      simp only [List.find?, hd]
      apply ih
      obtain ⟨x, hx, hxb⟩ := h
      rcases List.mem_cons.mp hx with hx2 | hx2
      · exact absurd (hx2 ▸ hxb) hr
      · exact ⟨x, hx2, hxb⟩

theorem find_append_single (row : BucketInfoRow) : ∀ l : List BucketInfoRow,
    (∀ x ∈ l, x.bucket ≠ row.bucket) →
    ((l ++ [row]).find? (fun r => decide (r.bucket = row.bucket))) = some row := by
  intro l
  induction l with
  | nil =>
    intro h
    simp [List.find?]
  | cons r rs ih =>
    intro h
    rw [List.cons_append]
    have hd : (decide (r.bucket = row.bucket)) = false := decide_eq_false (h r (by simp))
    simp only [List.find?, hd]
    exact ih (fun x hx => h x (by simp [hx]))

theorem get_bucket_info_upsert (st : Store) (row : BucketInfoRow) :
    get_bucket_info (upsert_bucket_info st row) row.bucket = some row := by
  unfold get_bucket_info upsert_bucket_info
  by_cases h : st.buckets.any (fun r => decide (r.bucket = row.bucket)) = true
  · rw [if_pos h]
    dsimp only
    apply find_map_replace
    simpa only [List.any_eq_true, decide_eq_true_eq] using h
  · rw [if_neg h]
    dsimp only
    apply find_append_single
    intro x hx
    simp only [List.any_eq_true, decide_eq_true_eq] at h
    push_neg at h
    exact h x hx

theorem get_bucket_info_bucket (st : Store) (b : Str) (r : BucketInfoRow)
    (h : get_bucket_info st b = some r) : r.bucket = b := by
  unfold get_bucket_info at h
  have := List.find?_some h
  exact of_decide_eq_true this

theorem consumePage_requests (b : Str) (now : Int) (pg : Page) (ls : LoopSt) :
    (consumePage b now pg ls).requests_made = ls.requests_made + 1 := by
  unfold consumePage
  dsimp only
  split <;> rfl

theorem consumePage_indexed (b : Str) (now : Int) (pg : Page) (ls : LoopSt) :
    (consumePage b now pg ls).total_indexed = ls.total_indexed + pg.objects.length := by
  unfold consumePage
  dsimp only
  split
  · next hobj =>
    have hlen0 : pg.objects.length = 0 := by
      have := congrArg List.length hobj
      simpa using this
    rw [hlen0]
    rfl
  · next hobj =>
    dsimp only
    unfold upsert_objects_batch
    rw [if_neg hobj]
    dsimp only
    rw [List.length_map]

theorem consumePage_store_pres (b : Str) (now : Int) (pg : Page) (ls : LoopSt)
    (bu k : Str) (v : Option Str) (h : objKeyIn ls.store bu k v) :
    objKeyIn (consumePage b now pg ls).store bu k v := by
  unfold consumePage
  dsimp only
  split
  · exact h
  · dsimp only
    exact objKeyIn_upsert_batch _ _ bu k v h

theorem consumePage_store_mem (b : Str) (now : Int) (pg : Page) (ls : LoopSt)
    (o : SObj) (ho : o ∈ pg.objects) :
    objKeyIn (consumePage b now pg ls).store b o.key none := by
  unfold consumePage
  dsimp only
  split
  · next hobj =>
    exfalso
    have hlen0 : pg.objects.length = 0 := by
      have := congrArg List.length hobj
      simpa using this
    rw [List.length_eq_zero] at hlen0
    rw [hlen0] at ho
    cases ho
  · next hobj =>
    dsimp only
    have hmem : from_s3_object o b now ∈ pg.objects.map (fun o => from_s3_object o b now) :=
      List.mem_map_of_mem _ ho
    exact objKeyIn_upsert_batch_mem _ _ _ hmem

theorem indexLoop_cancelled (b : Str) (maxReq : Nat) (cancelAt : Option Nat) (now : Int) :
    ∀ (pages : List Page) (ls0 ls : LoopSt) (ic : Bool),
    indexLoop b maxReq cancelAt now pages ls0 = some (ls, ic, true) →
    ic = false ∧
    ls0.requests_made ≤ ls.requests_made ∧
    ls.requests_made - ls0.requests_made ≤ pages.length ∧
    ls.total_indexed = ls0.total_indexed +
      ((pages.take (ls.requests_made - ls0.requests_made)).map
        (fun pg => pg.objects.length)).sum ∧
    (∀ pg ∈ pages.take (ls.requests_made - ls0.requests_made), ∀ o ∈ pg.objects,
      objKeyIn ls.store b o.key none) ∧
    (∀ bu k v, objKeyIn ls0.store bu k v → objKeyIn ls.store bu k v) := by
  intro pages
  induction pages with
  | nil =>
    intro ls0 ls ic h
    unfold indexLoop at h
    split_ifs at h with hc hm
    · simp only [Option.some.injEq, Prod.mk.injEq] at h
      obtain ⟨hls, hic, -⟩ := h
      subst hls
      subst hic
      refine ⟨rfl, le_refl _, by simp, by simp, ?_, fun bu k v hh => hh⟩
      intro pg hpg
      simp at hpg
    all_goals simp at h
  | cons pg rest ih =>
    intro ls0 ls ic h
    unfold indexLoop at h
    split_ifs at h with hc hm
    · simp only [Option.some.injEq, Prod.mk.injEq] at h
      obtain ⟨hls, hic, -⟩ := h
      subst hls
      subst hic
      refine ⟨rfl, le_refl _, by simp, by simp, ?_, fun bu k v hh => hh⟩
      intro pg2 hpg
      simp at hpg
    · simp at h
    · dsimp only at h
      by_cases ht : pg.is_truncated = false
      · rw [if_pos ht] at h
        simp at h
      · rw [if_neg ht] at h
        cases htok : pg.continuation_token with
        | none =>
          rw [htok] at h
          simp at h
        | some t =>
          rw [htok] at h
          obtain ⟨hic, hreq, hcnt, hsum, hmem, hpres⟩ := ih _ ls ic h
          have hreq3 : ({ consumePage b now pg ls0 with
              continuation_token := some t } : LoopSt).requests_made =
              ls0.requests_made + 1 := by
            show (consumePage b now pg ls0).requests_made = ls0.requests_made + 1
            exact consumePage_requests b now pg ls0
          have hind3 : ({ consumePage b now pg ls0 with
              continuation_token := some t } : LoopSt).total_indexed =
              ls0.total_indexed + pg.objects.length := by
            show (consumePage b now pg ls0).total_indexed = _
            exact consumePage_indexed b now pg ls0
          rw [hreq3] at hreq hcnt hsum hmem
          rw [hind3] at hsum
          have hn : ls.requests_made - ls0.requests_made =
              (ls.requests_made - (ls0.requests_made + 1)) + 1 := by omega
          refine ⟨hic, by omega, ?_, ?_, ?_, ?_⟩
          · rw [List.length_cons]
            omega
          · rw [hn, List.take_succ_cons, List.map_cons, List.sum_cons]
            omega
          · rw [hn, List.take_succ_cons]
            intro pg2 hpg2 o ho
            rcases List.mem_cons.mp hpg2 with hpg2 | hpg2
            · subst hpg2
              exact hpres b o.key none (consumePage_store_mem b now pg2 ls0 o ho)
            · exact hmem pg2 hpg2 o ho
          · intro bu k v hh
            exact hpres bu k v (consumePage_store_pres b now pg ls0 bu k v hh)

theorem upsert_bucket_info_objects (st : Store) (row : BucketInfoRow) :
    (upsert_bucket_info st row).objects = st.objects := by
  unfold upsert_bucket_info
  split <;> rfl

/-- C4: cancelled indexing preserves partial state.  When a run of
`initial_index_bucket` returns `Ok` with a non-`None` error — which happens
exactly when the cancel signal was observed at a loop check — the result
carries `error = Some("Cancelled by user")` and `is_complete = false`,
`total_indexed` counts exactly the objects of the pages upserted before the
cancellation (one page per listing request; the cancelled run makes one
further delimiter request, hence `requests_made - 1` listing pages), each
of those objects is retained in the final store, and the bucket info is
written with `initial_index_completed = false`. -/
theorem C4_cancelled_indexing (st : Store) (b : Str) (cfg : IndexingConfig)
    (cancelAt : Option Nat) (now : Int) (pages : List Page) (rootPage : Option Page)
    (res : InitialIndexResult) (stF : Store)
    (hrun : initial_index_bucket st b cfg cancelAt now pages rootPage = some (res, stF))
    (herr : res.error ≠ none) :
    res.error = some cancelMsg ∧
    res.is_complete = false ∧
    1 ≤ res.requests_made ∧
    res.requests_made - 1 ≤ pages.length ∧
    res.total_indexed =
      ((pages.take (res.requests_made - 1)).map (fun pg => pg.objects.length)).sum ∧
    (∀ pg ∈ pages.take (res.requests_made - 1), ∀ o ∈ pg.objects,
      objKeyIn stF b o.key none) ∧
    (get_bucket_info stF b).map (fun r => r.initial_index_completed) = some false := by
  unfold initial_index_bucket at hrun
  cases hloop : indexLoop b cfg.max_initial_requests cancelAt now pages
      ⟨st, 0, 0, 0, none, none⟩ with
  | none =>
    rw [hloop] at hrun
    simp at hrun
  | some trip =>
    obtain ⟨ls, ic, wc⟩ := trip
    rw [hloop] at hrun
    dsimp only at hrun
    cases ic with
    | true =>
      rw [if_pos rfl] at hrun
      dsimp only at hrun
      simp only [Option.some.injEq, Prod.mk.injEq] at hrun
      obtain ⟨hres, hstF⟩ := hrun
      cases wc with
      | false =>
        exfalso
        apply herr
        rw [← hres]
        rfl
      | true =>
        have hcontra := (indexLoop_cancelled b cfg.max_initial_requests cancelAt now pages
          ⟨st, 0, 0, 0, none, none⟩ ls true hloop).1
        simp at hcontra
    | false =>
      rw [if_neg (by simp)] at hrun
      cases hroot : rootPage with
      | none =>
        rw [hroot] at hrun
        simp at hrun
      | some rp =>
        rw [hroot] at hrun
        dsimp only at hrun
        simp only [Option.some.injEq, Prod.mk.injEq] at hrun
        obtain ⟨hres, hstF⟩ := hrun
        cases wc with
        | false =>
          exfalso
          apply herr
          rw [← hres]
          rfl
        | true =>
          obtain ⟨-, hreq, hcnt, hsum, hmem, hpres⟩ :=
            indexLoop_cancelled b cfg.max_initial_requests cancelAt now pages
              ⟨st, 0, 0, 0, none, none⟩ ls false hloop
          have hcnt2 : ls.requests_made ≤ pages.length := by simpa using hcnt
          have hsum2 : ls.total_indexed =
              ((pages.take ls.requests_made).map (fun pg => pg.objects.length)).sum := by
            simpa using hsum
          have hmem2 : ∀ pg ∈ pages.take ls.requests_made, ∀ o ∈ pg.objects,
              objKeyIn ls.store b o.key none := by
            simpa using hmem
          have e1 : res.total_indexed = ls.total_indexed := by rw [← hres]
          have e2 : res.requests_made = ls.requests_made + 1 := by rw [← hres]
          have hobjeq : stF.objects = ls.store.objects := by
            rw [← hstF, upsert_bucket_info_objects, upsert_prefix_status_objects,
              folderFold_objects]
          refine ⟨by rw [← hres]; rfl, by rw [← hres], ?_, ?_, ?_, ?_, ?_⟩
          · rw [e2]
            omega
          · rw [e2]
            simpa using hcnt2
          · rw [e1, e2, Nat.add_sub_cancel]
            exact hsum2
          · rw [e2, Nat.add_sub_cancel]
            intro pg hpg o ho
            have hin := hmem2 pg hpg o ho
            unfold objKeyIn at hin ⊢
            rw [hobjeq]
            exact hin
          · rw [← hstF]
            rw [get_bucket_info_upsert]
            rfl

def pageC4 : Page := ⟨[⟨"a".toList, 5⟩], [], some "t".toList, true⟩

def rootPageC4 : Page := ⟨[], [], none, false⟩

def resC4 : InitialIndexResult :=
  ⟨1, false, 2, some "t".toList, some "a".toList, 5, some cancelMsg⟩

def stFC4 : Store :=
  ⟨[⟨"b".toList, "a".toList, none, 5, [], "a".toList, 0, false, 0⟩],
   [⟨"b".toList, [], false, 1, 5, some "t".toList, some "a".toList, some 0, none⟩],
   [⟨"b".toList, 2, false, some 0⟩]⟩

/-- Witness for C4: one truncated page of one object, cancellation observed
at the second loop check. -/
theorem C4_cancelled_indexing_witness :
    initial_index_bucket Store.empty "b".toList ⟨0, 1000⟩ (some 1) 0 [pageC4]
      (some rootPageC4) = some (resC4, stFC4) ∧
    resC4.error ≠ none ∧
    resC4.error = some cancelMsg ∧
    resC4.is_complete = false ∧
    resC4.total_indexed =
      (([pageC4].take (resC4.requests_made - 1)).map (fun pg => pg.objects.length)).sum ∧
    (get_bucket_info stFC4 "b".toList).map (fun r => r.initial_index_completed) =
      some false :=
  ⟨by decide, by decide,
    (C4_cancelled_indexing Store.empty "b".toList ⟨0, 1000⟩ (some 1) 0 [pageC4]
      (some rootPageC4) resC4 stFC4 (by decide) (by decide)).1,
    (C4_cancelled_indexing Store.empty "b".toList ⟨0, 1000⟩ (some 1) 0 [pageC4]
      (some rootPageC4) resC4 stFC4 (by decide) (by decide)).2.1,
    (C4_cancelled_indexing Store.empty "b".toList ⟨0, 1000⟩ (some 1) 0 [pageC4]
      (some rootPageC4) resC4 stFC4 (by decide) (by decide)).2.2.2.2.1,
    (C4_cancelled_indexing Store.empty "b".toList ⟨0, 1000⟩ (some 1) 0 [pageC4]
      (some rootPageC4) resC4 stFC4 (by decide) (by decide)).2.2.2.2.2.2⟩

end S3Explorer
